import Mathlib

/-!
Verification of the knowledge-base chunking and metadata-enrichment lambdas.

The definitions below are shallow embeddings of the Python sources in
`src/lambda-function/`:

* `tokenize` embeds `str.split()` (split on whitespace runs, no empties);
* `joinTokens` embeds `' '.join(...)`;
* `pyRange stop step` embeds Python `range(0, stop, step)` for `step > 0`;
* `parentWindows`, `childWindows`, `createChunks` embed
  `HierarchicalChunker.create_chunks` from `lambda_function.py`;
* `simpleChunk` embeds `SimpleChunker.chunk` from `lambda-v1.py`;
* `processContent` embeds `process_content` from `lambda_function.py`;
* the `Json` type with `dumps`/`loads` models the parts of Python's `json`
  standard library used by `lambda-latest.py` (numbers are modelled as
  integers; floats are outside the model);
* `enrichMeta` / `processContentLatest` embed `process_content` from
  `lambda-latest.py`;
* `lambdaHandlerH` embeds `lambda_handler` from `lambda_function.py` and
  `lambdaHandlerV1` embeds `lambda_handler` from `lambda-v1.py`, with the
  object store abstracted as a read oracle.
-/

/-- Character escape helpers: opening brace. -/
def lbrace : Char := Char.ofNat 123

/-- Character escape helpers: closing brace. -/
def rbrace : Char := Char.ofNat 125

/-- Accumulator-style worker for `tokenize`: walks the character list,
collecting the current word in `acc` (reversed). Embeds CPython's
whitespace-splitting `str.split()`. -/
def wordsAux : List Char → List Char → List (List Char)
  | [], acc => if acc = [] then [] else [acc.reverse]
  | c :: cs, acc =>
    if c.isWhitespace then
      if acc = [] then wordsAux cs [] else acc.reverse :: wordsAux cs []
    else wordsAux cs (c :: acc)

/-- Embeds Python `text.split()`: whitespace-delimited tokens, empty and
whitespace-only input give the empty list. -/
def tokenize (s : String) : List String :=
  (wordsAux s.data []).map fun l => String.mk l

/-- Embeds Python `' '.join(tokens)`. -/
def joinTokens : List String → String
  | [] => ""
  | [t] => t
  | t :: rest => t ++ " " ++ joinTokens rest

/-- Embeds Python `range(0, stop, step)` for a positive `step`: the list
`[0, step, 2*step, ...]` of all multiples of `step` below `stop`. -/
def pyRange (stop step : Nat) : List Nat :=
  (List.range ((stop + step - 1) / step)).map (· * step)

/-- Windows of `size` tokens taken at starts `0, stride, 2*stride, ...`:
embeds the comprehension `[ws[i:i+size] for i in range(0, len(ws), stride)]`
(Python slicing clips at the list end). -/
def windowsBy (size stride : Nat) (ws : List α) : List (List α) :=
  (pyRange ws.length stride).map fun i => (ws.drop i).take size

/-- Parent windows of `HierarchicalChunker.create_chunks`: consecutive
non-overlapping windows of `size` tokens. -/
def parentWindows (size : Nat) (ws : List α) : List (List α) :=
  windowsBy size size ws

/-- Child windows of `HierarchicalChunker.create_chunks` for one parent:
windows of `childSize` tokens at stride `childSize - overlap`.
Matches the source only when `overlap < childSize` (positive stride);
`createChunks` handles the other cases. -/
def childWindows (childSize overlap : Nat) (ws : List α) : List (List α) :=
  windowsBy childSize (childSize - overlap) ws

/-- Embeds `HierarchicalChunker.create_chunks` (lambda_function.py lines
15-46) at the token level, returning the parent windows and, for each
parent, its child windows. `Except.error` models an uncaught Python
`ValueError` from `range` with a zero step: with `parentSize = 0` the
parent loop raises at once; with `childSize = overlap` the child loop
raises as soon as one parent exists (after the parent windows were already
computed); with `childSize < overlap` the stride is negative, `range` is
empty, and every parent silently gets zero child windows. -/
def createChunks (parentSize childSize overlap : Nat) (text : String) :
    Except Unit (List (List String) × List (List (List String))) :=
  if parentSize = 0 then .error () else
  let ws := tokenize text
  let parents := parentWindows parentSize ws
  if overlap < childSize then
    .ok (parents, parents.map (childWindows childSize overlap))
  else if childSize = overlap ∧ parents ≠ [] then .error ()
  else .ok (parents, parents.map fun _ => [])

/-- Embeds `SimpleChunker.chunk` from lambda-v1.py: fixed windows of 100
tokens, re-joined with single spaces. -/
def simpleChunk (text : String) : List String :=
  (parentWindows 100 (tokenize text)).map joinTokens

-- Sanity examples (concrete evaluations of the embedding).
example : tokenize "a  b c" = ["a", "b", "c"] := by decide
example : tokenize "" = [] := by decide
example : parentWindows 4 (tokenize "a b c d e f g h i j") =
    [["a","b","c","d"], ["e","f","g","h"], ["i","j"]] := by decide
example : childWindows 3 1 ["a","b","c","d"] = [["a","b","c"],["c","d"]] := by decide
example : childWindows 5 3 ["a","b","c"] = [["a","b","c"],["c"]] := by decide
example : createChunks 2 3 5 "a b c" = .ok ([["a","b"],["c"]], [[],[]]) := rfl

/-! ### Window arithmetic -/

theorem lt_ceilDiv_iff {stop step k : Nat} (h : 0 < step) :
    k < (stop + step - 1) / step ↔ k * step < stop := by
  rw [Nat.lt_iff_add_one_le, Nat.le_div_iff_mul_le h]
  have hks : (k + 1) * step = k * step + step := by ring
  omega

theorem windowsBy_length (size stride : Nat) (ws : List α) :
    (windowsBy size stride ws).length = (ws.length + stride - 1) / stride := by
  simp [windowsBy, pyRange]

theorem windowsBy_get (size stride : Nat) (ws : List α) (k : Nat)
    (hk : k < (windowsBy size stride ws).length) :
    (windowsBy size stride ws).get ⟨k, hk⟩ = (ws.drop (k * stride)).take size := by
  simp [windowsBy, pyRange]

theorem windowsBy_mem {size stride : Nat} {ws w : List α}
    (hw : w ∈ windowsBy size stride ws) :
    ∃ k, k * stride < ws.length ∧ w = (ws.drop (k * stride)).take size := by
  simp only [windowsBy, pyRange, List.map_map, List.mem_map, List.mem_range,
    Function.comp_apply] at hw
  obtain ⟨k, hk, rfl⟩ := hw
  by_cases hs : 0 < stride
  · exact ⟨k, (lt_ceilDiv_iff hs).mp hk, rfl⟩
  · have h0 : stride = 0 := by omega
    subst h0
    simp [Nat.div_zero] at hk

theorem parentWindows_nil (w : Nat) : parentWindows w ([] : List α) = [] := by
  have h : (w - 1) / w = 0 := by
    rcases Nat.eq_zero_or_pos w with h | h
    · simp [h]
    · exact Nat.div_eq_of_lt (by omega)
  simp [parentWindows, windowsBy, pyRange, h]

theorem ceilDiv_succ {w n : Nat} (hw : 0 < w) (hn : 0 < n) :
    (n + w - 1) / w = (n - w + w - 1) / w + 1 := by
  have h1 : n + w - 1 = (n - 1) + w := by omega
  rw [h1, Nat.add_div_right _ hw]
  rcases Nat.le_total n w with h | h
  · have h2 : n - w + w - 1 = w - 1 := by omega
    rw [h2, Nat.div_eq_of_lt (by omega), Nat.div_eq_of_lt (by omega)]
  · have h2 : n - w + w - 1 = n - 1 := by omega
    rw [h2]

theorem parentWindows_cons {w : Nat} (hw : 0 < w) {ws : List α} (hws : ws ≠ []) :
    parentWindows w ws = ws.take w :: parentWindows w (ws.drop w) := by
  have hn : 0 < ws.length := List.length_pos.mpr hws
  simp only [parentWindows, windowsBy, pyRange, List.length_drop]
  rw [ceilDiv_succ hw hn, List.range_succ_eq_map]
  simp only [List.map_cons, List.map_map, Nat.zero_mul, List.drop_zero]
  congr 1
  apply List.map_congr_left
  intro k _
  simp only [Function.comp_apply, Nat.succ_eq_add_one]
  rw [List.drop_drop]
  congr 1
  ring

theorem flatten_parentWindows {w : Nat} (hw : 0 < w) (ws : List α) :
    (parentWindows w ws).flatten = ws := by
  suffices H : ∀ (n : Nat) (l : List α), l.length ≤ n → (parentWindows w l).flatten = l from
    H ws.length ws le_rfl
  intro n
  induction n with
  | zero =>
    intro l h
    have : l = [] := List.eq_nil_of_length_eq_zero (by omega)
    subst this
    simp [parentWindows_nil]
  | succ n ih =>
    intro l h
    rcases eq_or_ne l [] with rfl | hne
    · simp [parentWindows_nil]
    · have hn : 0 < l.length := List.length_pos.mpr hne
      rw [parentWindows_cons hw hne, List.flatten_cons,
        ih _ (by simp only [List.length_drop]; omega), List.take_append_drop]

/-! ### Tokenizer / join round trip -/

/-- Tokens produced by `tokenize` are nonempty and whitespace-free; joining
such tokens with single spaces and re-splitting recovers them. -/
def GoodToken (t : String) : Prop := t.data ≠ [] ∧ ∀ c ∈ t.data, ¬ c.isWhitespace

theorem wordsAux_not_ws {c : Char} (h : ¬ c.isWhitespace) (cs acc : List Char) :
    wordsAux (c :: cs) acc = wordsAux cs (c :: acc) := by
  simp [wordsAux, h]

theorem wordsAux_word {w : List Char} (hw : ∀ c ∈ w, ¬ c.isWhitespace) :
    ∀ (cs acc : List Char), wordsAux (w ++ cs) acc = wordsAux cs (w.reverse ++ acc) := by
  induction w with
  | nil => intro cs acc; simp
  | cons c w ih =>
    intro cs acc
    have hc : ¬ c.isWhitespace := hw c (by simp)
    rw [List.cons_append, wordsAux_not_ws hc,
      ih (fun d hd => hw d (by simp [hd])) cs (c :: acc)]
    simp

theorem joinTokens_cons (t : String) {ts : List String} (h : ts ≠ []) :
    joinTokens (t :: ts) = t ++ " " ++ joinTokens ts := by
  cases ts with
  | nil => exact absurd rfl h
  | cons u us => rfl

theorem wordsAux_joinTokens {ts : List String} (h : ∀ t ∈ ts, GoodToken t) :
    wordsAux (joinTokens ts).data [] = ts.map String.data := by
  induction ts with
  | nil => simp [joinTokens, wordsAux]
  | cons t ts ih =>
    have ht := h t (by simp)
    cases ts with
    | nil =>
      have h2 := wordsAux_word ht.2 [] []
      rw [List.append_nil] at h2
      show wordsAux t.data [] = [t.data]
      rw [h2]
      simp [wordsAux, ht.1]
    | cons u us =>
      rw [joinTokens_cons t (by simp)]
      have hdata : (t ++ " " ++ joinTokens (u :: us)).data
          = t.data ++ (' ' :: (joinTokens (u :: us)).data) := by
        simp [String.data_append]
      rw [hdata, wordsAux_word ht.2]
      have hsp : (' ' : Char).isWhitespace := by decide
      simp only [wordsAux, hsp, if_true, List.append_nil]
      rw [if_neg (by simp [ht.1]), ih (fun x hx => h x (by simp [hx]))]
      simp

theorem tokenize_joinTokens {ts : List String} (h : ∀ t ∈ ts, GoodToken t) :
    tokenize (joinTokens ts) = ts := by
  rw [tokenize, wordsAux_joinTokens h, List.map_map]
  have : (String.mk ∘ String.data) = id := by
    funext s
    rfl
  simp [this]

/-! ### Claim C8: fixed-count window strategy -/

theorem windows_tokenize_joinTokens {size stride : Nat} {ws : List String}
    (hgood : ∀ t ∈ ws, GoodToken t) :
    ∀ w ∈ windowsBy size stride ws, tokenize (joinTokens w) = w := by
  intro w hw
  obtain ⟨k, hk, rfl⟩ := windowsBy_mem hw
  exact tokenize_joinTokens fun t ht =>
    hgood t (List.mem_of_mem_drop (List.mem_of_mem_take ht))

/-- Claim C8: for every whitespace-free token sequence, the fixed-count
window strategy of `SimpleChunker.chunk` (window size 100) satisfies:
re-splitting each window on the join separator and concatenating
reconstructs the token sequence; the number of windows is
`ceil(len/100)`; every non-final window has exactly 100 tokens; no window
is empty; and the empty token sequence yields zero windows (finally,
`simpleChunk` is exactly these windows re-joined with spaces). -/
theorem C8_fixed_count_windows (ws : List String) (hgood : ∀ t ∈ ws, GoodToken t) :
    ((parentWindows 100 ws).map (fun w => tokenize (joinTokens w))).flatten = ws
    ∧ (parentWindows 100 ws).length = (ws.length + 99) / 100
    ∧ (∀ (k : Nat) (hk1 : k + 1 < (parentWindows 100 ws).length),
        ((parentWindows 100 ws).get ⟨k, by omega⟩).length = 100)
    ∧ (∀ w ∈ parentWindows 100 ws, w ≠ [])
    ∧ parentWindows 100 ([] : List String) = []
    ∧ (∀ text, simpleChunk text = (parentWindows 100 (tokenize text)).map joinTokens) := by
  refine ⟨?_, ?_, ?_, ?_, parentWindows_nil 100, fun _ => rfl⟩
  · have h := @windows_tokenize_joinTokens 100 100 ws hgood
    have hflat := flatten_parentWindows (w := 100) (by omega) ws
    simp only [parentWindows] at hflat ⊢
    rw [List.map_congr_left h]
    simpa using hflat
  · exact windowsBy_length 100 100 ws
  · intro k hk1
    have hlen := windowsBy_length 100 100 (α := String) ws
    simp only [parentWindows] at hk1 ⊢
    have hfull : (k + 1) * 100 < ws.length := by
      rw [hlen] at hk1
      exact (lt_ceilDiv_iff (by omega)).mp hk1
    rw [windowsBy_get]
    rw [List.length_take, List.length_drop]
    have h100 : (k + 1) * 100 = k * 100 + 100 := by ring
    omega
  · intro w hw
    obtain ⟨k, hk, rfl⟩ := windowsBy_mem hw
    have : ((ws.drop (k * 100)).take 100).length ≠ 0 := by
      rw [List.length_take, List.length_drop]
      omega
    exact fun hnil => this (by rw [hnil]; rfl)

/-- Witness for C8 at the concrete token sequence `["alpha", "beta"]`. -/
theorem C8_fixed_count_windows_witness :
    (∀ t ∈ ["alpha", "beta"], GoodToken t)
    ∧ (((parentWindows 100 ["alpha", "beta"]).map
          (fun w => tokenize (joinTokens w))).flatten = ["alpha", "beta"]
    ∧ (parentWindows 100 ["alpha", "beta"]).length = (2 + 99) / 100
    ∧ (∀ (k : Nat) (hk1 : k + 1 < (parentWindows 100 ["alpha", "beta"]).length),
        ((parentWindows 100 ["alpha", "beta"]).get ⟨k, by omega⟩).length = 100)
    ∧ (∀ w ∈ parentWindows 100 ["alpha", "beta"], w ≠ [])
    ∧ parentWindows 100 ([] : List String) = []
    ∧ (∀ text, simpleChunk text = (parentWindows 100 (tokenize text)).map joinTokens)) := by
  have hgood : ∀ t ∈ ["alpha", "beta"], GoodToken t := by
    intro t ht
    fin_cases ht <;> exact ⟨by decide, by decide⟩
  exact ⟨hgood, C8_fixed_count_windows ["alpha", "beta"] hgood⟩

/-! ### Claims C1 and C2: hierarchical child windows -/

/-- Claim C1 (amended): for `0 < overlap < childSize` and stride
`childSize - overlap`, child window `k` spans tokens
`[k*stride, k*stride + childSize)` clipped to the parent's token count,
and the loop runs exactly while a window's start index is below the
parent's token count. A window whose **end is unclipped**
(`k*stride + childSize <= length`) has exactly `childSize` tokens, and a
consecutive pair whose first window is unclipped shares exactly `overlap`
tokens. (The original claim asserted this for every *non-final* window;
that fails when the parent is shorter than `childSize`, see the
counterexample.) -/
theorem C1_child_window_geometry (childSize overlap : Nat) (ws : List String)
    (hov : 0 < overlap) (hlt : overlap < childSize) :
    ((childWindows childSize overlap ws).length
        = (ws.length + (childSize - overlap) - 1) / (childSize - overlap))
    ∧ (∀ (k : Nat) (hk : k < (childWindows childSize overlap ws).length),
        (childWindows childSize overlap ws).get ⟨k, hk⟩
          = (ws.drop (k * (childSize - overlap))).take childSize)
    ∧ (∀ k : Nat, k < (childWindows childSize overlap ws).length
          ↔ k * (childSize - overlap) < ws.length)
    ∧ (∀ k : Nat, k * (childSize - overlap) + childSize ≤ ws.length →
        k < (childWindows childSize overlap ws).length
        ∧ ((ws.drop (k * (childSize - overlap))).take childSize).length = childSize)
    ∧ (∀ k : Nat, k + 1 < (childWindows childSize overlap ws).length →
        k * (childSize - overlap) + childSize ≤ ws.length →
        ((ws.drop (k * (childSize - overlap))).take childSize).drop (childSize - overlap)
          = ((ws.drop ((k + 1) * (childSize - overlap))).take childSize).take overlap
        ∧ (((ws.drop (k * (childSize - overlap))).take childSize).drop
            (childSize - overlap)).length = overlap) := by
  set st := childSize - overlap with hst
  have hstpos : 0 < st := by omega
  have hlen : (childWindows childSize overlap ws).length = (ws.length + st - 1) / st :=
    windowsBy_length childSize st ws
  refine ⟨hlen, ?_, ?_, ?_, ?_⟩
  · intro k hk
    exact windowsBy_get childSize st ws k hk
  · intro k
    rw [hlen, lt_ceilDiv_iff hstpos]
  · intro k hk
    have hkw : k * st < ws.length := by omega
    refine ⟨by rw [hlen, lt_ceilDiv_iff hstpos]; omega, ?_⟩
    rw [List.length_take, List.length_drop]
    omega
  · intro k hk1 hkcs
    have hsucc : (k + 1) * st = k * st + st := by ring
    constructor
    · rw [List.drop_take, List.drop_drop, List.take_take]
      have h1 : childSize - st = overlap := by omega
      have h2 : k * st + st = (k + 1) * st := by ring
      have h3 : overlap ⊓ childSize = overlap := by
        simp [Nat.min_def]
        omega
      rw [h1, h2, h3]
    · rw [List.length_drop, List.length_take, List.length_drop]
      omega

/-- Witness for C1 at `childSize = 3`, `overlap = 1`,
tokens `["a","b","c","d"]`. -/
theorem C1_child_window_geometry_witness :
    (0 < 1 ∧ 1 < 3)
    ∧ (((childWindows 3 1 ["a","b","c","d"]).length = (4 + (3 - 1) - 1) / (3 - 1))
    ∧ (∀ (k : Nat) (hk : k < (childWindows 3 1 ["a","b","c","d"]).length),
        (childWindows 3 1 ["a","b","c","d"]).get ⟨k, hk⟩
          = ((["a","b","c","d"] : List String).drop (k * (3 - 1))).take 3)
    ∧ (∀ k : Nat, k < (childWindows 3 1 ["a","b","c","d"]).length ↔ k * (3 - 1) < 4)
    ∧ (∀ k : Nat, k * (3 - 1) + 3 ≤ 4 →
        k < (childWindows 3 1 ["a","b","c","d"]).length
        ∧ (((["a","b","c","d"] : List String).drop (k * (3 - 1))).take 3).length = 3)
    ∧ (∀ k : Nat, k + 1 < (childWindows 3 1 ["a","b","c","d"]).length →
        k * (3 - 1) + 3 ≤ 4 →
        ((((["a","b","c","d"] : List String).drop (k * (3 - 1))).take 3).drop (3 - 1)
          = (((["a","b","c","d"] : List String).drop ((k + 1) * (3 - 1))).take 3).take 1)
        ∧ (((((["a","b","c","d"] : List String).drop (k * (3 - 1))).take 3).drop
            (3 - 1)).length = 1))) :=
  ⟨⟨by decide, by decide⟩,
    C1_child_window_geometry 3 1 ["a","b","c","d"] (by decide) (by decide)⟩

/-- Counterexample to claim C1 as stated: with tokens `"a b c"`,
`parentSize = 10`, `childSize = 5`, `overlap = 3` (so `0 < overlap <
childSize` holds and the single parent window is the whole sequence), the
child windows are `[["a","b","c"], ["c"]]`: window 0 is non-final yet has
3 tokens, not `childSize = 5`, and the two consecutive windows share one
token, not `overlap = 3`. -/
theorem C1_counterexample_nonfinal_short :
    createChunks 10 5 3 "a b c" = .ok ([["a","b","c"]], [[["a","b","c"],["c"]]])
    ∧ (0 < 3 ∧ 3 < 5)
    ∧ (childWindows 5 3 (["a","b","c"] : List String)).length = 2
    ∧ (childWindows 5 3 (["a","b","c"] : List String)).headI.length = 3
    ∧ ((childWindows 5 3 (["a","b","c"] : List String)).headI.length = 5 → False)
    ∧ (childWindows 5 3 (["a","b","c"] : List String)).headI.drop 2 = ["c"]
    ∧ (((childWindows 5 3 (["a","b","c"] : List String)).headI.drop 2).length = 3
        → False) := by
  exact ⟨rfl, ⟨by decide, by decide⟩, by decide, by decide, by decide, by decide, by decide⟩

/-- Claim C2 (evaluation at the failing input): `HierarchicalChunker` never
raises a `ConfigurationError` — no such validation exists. With
`parentSize = 2`, `childSize = 3`, `overlap = 5` (overlap > childSize) the
chunker completes without error, producing the parent windows
`["a b","c"]` with empty child lists; with `overlap = childSize = 3` it
fails (an uncaught `ValueError` from `range` with zero step, modelled by
`Except.error`) only after the parent windows have been generated. -/
theorem C2_no_configuration_error_eval :
    createChunks 2 3 5 "a b c" = .ok ([["a","b"],["c"]], [[],[]])
    ∧ createChunks 2 3 3 "a b c" = .error () :=
  ⟨rfl, rfl⟩

/-! ### Claim C9: character-budget greedy chunker (spec-modelled) -/

/-- Modelled from the spec: the "character-budget greedy window" chunking
strategy of spec section 4.2, which has no implementation under `src/`.
State is `(emitted windows, current window, current character length)`.
A token is appended to the current window when
`currentLength + len(token) + (1 if window non-empty else 0) <= maxLength`;
otherwise the current window is closed (emitted, when non-empty, so that
no empty window is ever emitted) and a new window starts with that token,
never splitting a token. -/
def greedyStep (maxLength : Nat) (st : List (List String) × List String × Nat)
    (t : String) : List (List String) × List String × Nat :=
  if st.2.2 + t.length + (if st.2.1 = [] then 0 else 1) ≤ maxLength then
    (st.1, st.2.1 ++ [t], st.2.2 + t.length + (if st.2.1 = [] then 0 else 1))
  else
    ((if st.2.1 = [] then st.1 else st.1 ++ [st.2.1]), [t], t.length)

/-- Modelled from the spec: run the greedy accumulation over the token
sequence and emit the final non-empty window. -/
def greedyChunk (maxLength : Nat) (ts : List String) : List (List String) :=
  let st := ts.foldl (greedyStep maxLength) ([], [], 0)
  if st.2.1 = [] then st.1 else st.1 ++ [st.2.1]

/-- Windows the greedy chunker may emit: non-empty, and within the
character budget unless a lone over-long token. -/
def GoodWin (maxLength : Nat) (w : List String) : Prop :=
  w ≠ [] ∧ ((joinTokens w).length ≤ maxLength ∨
    ∃ t, w = [t] ∧ maxLength < t.length ∧ (joinTokens w).length = t.length)

/-- State invariant of the greedy fold. -/
def greedyInv (maxLength : Nat) (st : List (List String) × List String × Nat) : Prop :=
  (∀ w ∈ st.1, GoodWin maxLength w)
  ∧ (st.2.1 = [] → st.2.2 = 0)
  ∧ (st.2.1 ≠ [] → st.2.2 = (joinTokens st.2.1).length ∧ GoodWin maxLength st.2.1)

theorem joinTokens_cons_len {us : List String} (u : String) (h : us ≠ []) :
    (joinTokens (u :: us)).length = u.length + 1 + (joinTokens us).length := by
  rw [joinTokens_cons u h, String.length_append, String.length_append]
  rfl

theorem joinTokens_append_singleton (cur : List String) (t : String) :
    (joinTokens (cur ++ [t])).length
      = (joinTokens cur).length + t.length + (if cur = [] then 0 else 1) := by
  induction cur with
  | nil =>
    have h1 : joinTokens [t] = t := rfl
    have h2 : joinTokens ([] : List String) = "" := rfl
    simp [h1, h2]
  | cons u us ih =>
    rw [List.cons_append, joinTokens_cons_len u (by simp), ih]
    have hne : (u :: us : List String) ≠ [] := by simp
    rw [if_neg hne]
    cases us with
    | nil =>
      rw [if_pos rfl]
      have h1 : joinTokens [u] = u := rfl
      have h2 : (joinTokens ([] : List String)).length = 0 := rfl
      rw [h1, h2]
      omega
    | cons v vs =>
      have hne2 : (v :: vs : List String) ≠ [] := by simp
      rw [if_neg hne2, joinTokens_cons_len u hne2]
      omega

theorem joinTokens_singleton_len (t : String) : (joinTokens [t]).length = t.length := rfl

theorem goodWin_singleton (m : Nat) (t : String) : GoodWin m [t] := by
  by_cases h : t.length ≤ m
  · exact ⟨by simp, Or.inl (by rw [joinTokens_singleton_len]; exact h)⟩
  · exact ⟨by simp, Or.inr ⟨t, rfl, by omega, joinTokens_singleton_len t⟩⟩

/-- Unfolding of `greedyStep` on an empty current window: the separator
term is 0 and nothing is emitted. -/
theorem greedyStep_empty (m n : Nat) (done : List (List String)) (t : String) :
    greedyStep m (done, [], n) t =
      if n + t.length ≤ m then (done, [t], n + t.length) else (done, [t], t.length) := by
  simp [greedyStep]

/-- Unfolding of `greedyStep` on a non-empty current window: the token
joins the window exactly when `n + len(t) + 1 <= m`; otherwise the window
is emitted and a new one starts with the token. -/
theorem greedyStep_cons {cur : List String} (hcur : cur ≠ []) (m n : Nat)
    (done : List (List String)) (t : String) :
    greedyStep m (done, cur, n) t =
      if n + t.length + 1 ≤ m then (done, cur ++ [t], n + t.length + 1)
      else (done ++ [cur], [t], t.length) := by
  simp [greedyStep, hcur]

theorem greedyStep_inv {m : Nat} {st : List (List String) × List String × Nat}
    (h : greedyInv m st) (t : String) : greedyInv m (greedyStep m st t) := by
  obtain ⟨done, cur, n⟩ := st
  obtain ⟨hdone, hnil, hcons⟩ := h
  by_cases hcur : cur = []
  · subst hcur
    have hn : n = 0 := hnil rfl
    subst hn
    rw [greedyStep_empty]
    by_cases hcond : 0 + t.length ≤ m
    · rw [if_pos hcond]
      refine ⟨hdone, by simp, fun _ => ⟨?_, goodWin_singleton m t⟩⟩
      show 0 + t.length = (joinTokens [t]).length
      rw [joinTokens_singleton_len]
      omega
    · rw [if_neg hcond]
      exact ⟨hdone, by simp, fun _ => ⟨(joinTokens_singleton_len t).symm,
        goodWin_singleton m t⟩⟩
  · obtain ⟨hn, hgood⟩ := hcons hcur
    rw [greedyStep_cons hcur]
    by_cases hcond : n + t.length + 1 ≤ m
    · rw [if_pos hcond]
      have hl : (joinTokens (cur ++ [t])).length = n + t.length + 1 := by
        rw [joinTokens_append_singleton, if_neg hcur, ← hn]
      refine ⟨hdone, by simp, fun _ => ⟨hl.symm, by simp,
        Or.inl (show (joinTokens (cur ++ [t])).length ≤ m by omega)⟩⟩
    · rw [if_neg hcond]
      refine ⟨?_, by simp, fun _ => ⟨(joinTokens_singleton_len t).symm,
        goodWin_singleton m t⟩⟩
      intro w hw
      rcases List.mem_append.mp hw with hmem | hmem
      · exact hdone w hmem
      · rw [List.mem_singleton.mp hmem]
        exact hgood

theorem greedy_foldl_inv (m : Nat) :
    ∀ (ts : List String) (st : List (List String) × List String × Nat),
      greedyInv m st → greedyInv m (ts.foldl (greedyStep m) st) := by
  intro ts
  induction ts with
  | nil => intro st h; exact h
  | cons t ts ih =>
    intro st h
    rw [List.foldl_cons]
    exact ih _ (greedyStep_inv h t)

theorem greedy_foldl_flatten (m : Nat) :
    ∀ (ts : List String) (st : List (List String) × List String × Nat),
      (ts.foldl (greedyStep m) st).1.flatten ++ (ts.foldl (greedyStep m) st).2.1
        = st.1.flatten ++ st.2.1 ++ ts := by
  intro ts
  induction ts with
  | nil => intro st; simp
  | cons t ts ih =>
    intro st
    rw [List.foldl_cons, ih]
    obtain ⟨done, cur, n⟩ := st
    by_cases hcur : cur = []
    · subst hcur
      rw [greedyStep_empty]
      by_cases hcond : n + t.length ≤ m
      · rw [if_pos hcond]; simp
      · rw [if_neg hcond]; simp
    · rw [greedyStep_cons hcur]
      by_cases hcond : n + t.length + 1 ≤ m
      · rw [if_pos hcond]; simp
      · rw [if_neg hcond]; simp

/-- Claim C9: the character-budget greedy chunker (spec section 4.2,
modelled from the spec) appends a token to the current window iff
`currentLength + len(token) + (1 if window non-empty else 0) <= maxLength`;
every emitted window is non-empty and within the character budget unless
it is a single token longer than `maxLength` (in which case its joined
length equals that token's length, the token never being split); and
concatenating the windows' tokens (equivalently, re-splitting the joined
windows) reconstructs the token sequence. -/
theorem C9_greedy_budget (maxLength : Nat) (ts : List String) (hpos : 0 < maxLength) :
    (∀ (done : List (List String)) (cur : List String) (n : Nat) (t : String),
        cur ≠ [] →
        greedyStep maxLength (done, cur, n) t =
          if n + t.length + 1 ≤ maxLength then (done, cur ++ [t], n + t.length + 1)
          else (done ++ [cur], [t], t.length))
    ∧ (∀ w ∈ greedyChunk maxLength ts, w ≠ [] ∧
        ((joinTokens w).length ≤ maxLength ∨
          ∃ t, w = [t] ∧ maxLength < t.length ∧ (joinTokens w).length = t.length))
    ∧ (greedyChunk maxLength ts).flatten = ts
    ∧ ((∀ t ∈ ts, GoodToken t) →
        ((greedyChunk maxLength ts).map (fun w => tokenize (joinTokens w))).flatten
          = ts) := by
  have hg : greedyChunk maxLength ts
      = if (ts.foldl (greedyStep maxLength) ([], [], 0)).2.1 = []
        then (ts.foldl (greedyStep maxLength) ([], [], 0)).1
        else (ts.foldl (greedyStep maxLength) ([], [], 0)).1
          ++ [(ts.foldl (greedyStep maxLength) ([], [], 0)).2.1] := rfl
  have hflat : (greedyChunk maxLength ts).flatten = ts := by
    have hff := greedy_foldl_flatten maxLength ts ([], [], 0)
    simp only [List.flatten_nil, List.nil_append] at hff
    rw [hg]
    by_cases hc : (ts.foldl (greedyStep maxLength) ([], [], 0)).2.1 = []
    · rw [if_pos hc]
      rw [hc] at hff
      simpa using hff
    · rw [if_neg hc, List.flatten_append]
      simpa using hff
  refine ⟨fun done cur n t hcur => greedyStep_cons hcur maxLength n done t, ?_, hflat, ?_⟩
  · intro w hw
    have hinv := greedy_foldl_inv maxLength ts ([], [], 0)
      ⟨by simp, fun _ => rfl, fun h => absurd rfl h⟩
    rw [hg] at hw
    by_cases hc : (ts.foldl (greedyStep maxLength) ([], [], 0)).2.1 = []
    · rw [if_pos hc] at hw
      exact hinv.1 w hw
    · rw [if_neg hc] at hw
      rcases List.mem_append.mp hw with hmem | hmem
      · exact hinv.1 w hmem
      · rw [List.mem_singleton.mp hmem]
        exact (hinv.2.2 hc).2
  · intro hgood
    have hcong : ∀ w ∈ greedyChunk maxLength ts, tokenize (joinTokens w) = w := by
      intro w hw
      apply tokenize_joinTokens
      intro x hx
      apply hgood
      rw [← hflat]
      exact List.mem_flatten.mpr ⟨w, hw, hx⟩
    rw [List.map_congr_left hcong]
    simpa using hflat

/-- Witness for C9 at `maxLength = 5`, tokens `["ab","cd","efg"]`. -/
theorem C9_greedy_budget_witness :
    0 < 5 ∧ (greedyChunk 5 ["ab","cd","efg"]).flatten = ["ab","cd","efg"] :=
  ⟨by decide, (C9_greedy_budget 5 ["ab","cd","efg"] (by decide)).2.2.1⟩

-- Concrete evaluation of the greedy model.
example : greedyChunk 5 ["ab","cd","efg"] = [["ab","cd"],["efg"]] := by decide
example : greedyChunk 2 ["abcde"] = [["abcde"]] := by decide

/-! ### Association lists with Python dict update semantics -/

/-- Embeds Python `d[k] = v` on an insertion-ordered mapping: update in
place when the key exists, append otherwise. -/
def setKey : List (String × α) → String → α → List (String × α)
  | [], k, v => [(k, v)]
  | (k1, v1) :: rest, k, v =>
    if k1 = k then (k, v) :: rest else (k1, v1) :: setKey rest k v

/-- Embeds Python `d.get(k)` on an insertion-ordered mapping. -/
def getKey (k : String) : List (String × α) → Option α
  | [] => none
  | (k1, v1) :: rest => if k1 = k then some v1 else getKey k rest

theorem getKey_setKey_same (k : String) (v : α) :
    ∀ d : List (String × α), getKey k (setKey d k v) = some v := by
  intro d
  induction d with
  | nil => simp [setKey, getKey]
  | cons p rest ih =>
    obtain ⟨k1, v1⟩ := p
    by_cases h : k1 = k
    · simp [setKey, getKey, h]
    · simp [setKey, getKey, h, ih]

theorem getKey_setKey_ne {j k : String} (hjk : j ≠ k) (v : α) :
    ∀ d : List (String × α), getKey j (setKey d k v) = getKey j d := by
  have hkj : ¬ k = j := fun h => hjk h.symm
  intro d
  induction d with
  | nil =>
    show getKey j [(k, v)] = none
    simp [getKey, hkj]
  | cons p rest ih =>
    obtain ⟨k1, v1⟩ := p
    by_cases h : k1 = k
    · subst h
      simp [setKey, getKey, hkj]
    · simp only [setKey, if_neg h, getKey, ih]

theorem setKey_setKey_same (k : String) (v v' : α) :
    ∀ d : List (String × α), setKey (setKey d k v) k v' = setKey d k v' := by
  intro d
  induction d with
  | nil => simp [setKey]
  | cons p rest ih =>
    obtain ⟨k1, v1⟩ := p
    by_cases h : k1 = k
    · simp [setKey, h]
    · simp [setKey, h, ih]

/-! ### Claims C3 and C5: hierarchical chunk records -/

/-- Metadata values occurring in the hierarchical chunk records: strings
and lists of chunk ids (`childChunks`). -/
inductive MVal where
  | str : String → MVal
  | list : List String → MVal
deriving DecidableEq, Repr

/-- One processed chunk record (`chunk_info` in
`lambda_function.py:process_content`): raw content plus its metadata
mapping. -/
structure ChunkRec where
  content : String
  metadata : List (String × MVal)
deriving DecidableEq, Repr

/-- The spread `{**metadata, ...}` base: the file metadata as string
values. -/
def baseMeta (meta : List (String × String)) : List (String × MVal) :=
  meta.map fun p => (p.1, MVal.str p.2)

/-- Parent chunk record of `process_content` (lambda_function.py lines
96-109): content joined with spaces; metadata is the file metadata plus
`chunkType`, `chunkId = parent_<idx>` and
`childChunks = [child_0, ..., child_(n-1)]`. -/
def mkParentRec (meta : List (String × String)) (idx : Nat) (content : List String)
    (nKids : Nat) : ChunkRec :=
  { content := joinTokens content
    metadata :=
      setKey (setKey (setKey (baseMeta meta) "chunkType" (MVal.str "parent"))
          "chunkId" (MVal.str ("parent_" ++ toString idx)))
        "childChunks" (MVal.list ((List.range nKids).map fun i => "child_" ++ toString i)) }

/-- Child chunk record of `process_content` (lambda_function.py lines
111-124): `chunkId = child_<childIdx>` (0-based within the parent) and
`parentChunk = parent_<parentIdx>`. -/
def mkChildRec (meta : List (String × String)) (pidx cidx : Nat)
    (content : List String) : ChunkRec :=
  { content := joinTokens content
    metadata :=
      setKey (setKey (setKey (baseMeta meta) "chunkType" (MVal.str "child"))
          "chunkId" (MVal.str ("child_" ++ toString cidx)))
        "parentChunk" (MVal.str ("parent_" ++ toString pidx)) }

/-- Embeds `process_content` from lambda_function.py (lines 90-126): for
each parent (in order) append the parent record, then its child records in
generation order. The loop is the `foldl`; `Except` propagates a chunker
failure (the caller's `try` is modelled at the handler level). -/
def processContent (ps cs ov : Nat) (text : String)
    (meta : List (String × String)) : Except Unit (List ChunkRec) :=
  (createChunks ps cs ov text).map fun pc =>
    ((pc.1.zip pc.2).enum).foldl
      (fun acc e =>
        (acc ++ [mkParentRec meta e.1 e.2.1 e.2.2.length])
          ++ (e.2.2.enum.map fun ce => mkChildRec meta e.1 ce.1 ce.2))
      []

/-- The block of records one parent contributes: the parent record
followed by its child records in order. -/
def chunkBlock (meta : List (String × String))
    (e : Nat × (List String × List (List String))) : List ChunkRec :=
  mkParentRec meta e.1 e.2.1 e.2.2.length
    :: e.2.2.enum.map fun ce => mkChildRec meta e.1 ce.1 ce.2

theorem processLoop_eq (meta : List (String × String)) :
    ∀ (l : List (Nat × (List String × List (List String)))) (init : List ChunkRec),
      l.foldl
        (fun acc e =>
          (acc ++ [mkParentRec meta e.1 e.2.1 e.2.2.length])
            ++ (e.2.2.enum.map fun ce => mkChildRec meta e.1 ce.1 ce.2))
        init
      = init ++ (l.map (chunkBlock meta)).flatten := by
  intro l
  induction l with
  | nil => intro init; simp
  | cons e l ih =>
    intro init
    rw [List.foldl_cons, ih]
    simp [chunkBlock]

theorem processContent_blocks {ps cs ov : Nat} (text : String)
    (meta : List (String × String)) (hps : 0 < ps) (hov : ov < cs) :
    processContent ps cs ov text meta
      = .ok ((((parentWindows ps (tokenize text)).zip
            ((parentWindows ps (tokenize text)).map (childWindows cs ov))).enum.map
            (chunkBlock meta)).flatten) := by
  rw [processContent, createChunks]
  rw [if_neg (by omega), if_pos hov]
  simp only [Except.map]
  rw [processLoop_eq]
  simp

theorem processContent_ok_shape {ps cs ov : Nat} {text : String}
    {meta : List (String × String)} {recs : List ChunkRec}
    (h : processContent ps cs ov text meta = .ok recs) :
    ∃ kids : List (List (List String)),
      recs = (((parentWindows ps (tokenize text)).zip kids).enum.map
        (chunkBlock meta)).flatten := by
  rw [processContent, createChunks] at h
  by_cases hps : ps = 0
  · rw [if_pos hps] at h
    exact absurd h (by simp [Except.map])
  · rw [if_neg hps] at h
    by_cases hov : ov < cs
    · rw [if_pos hov] at h
      refine ⟨(parentWindows ps (tokenize text)).map (childWindows cs ov), ?_⟩
      simp only [Except.map] at h
      rw [processLoop_eq] at h
      simpa using (Except.ok.inj h).symm
    · rw [if_neg hov] at h
      by_cases hz : cs = ov ∧ parentWindows ps (tokenize text) ≠ []
      · rw [if_pos hz] at h
        exact absurd h (by simp [Except.map])
      · rw [if_neg hz] at h
        refine ⟨(parentWindows ps (tokenize text)).map fun _ => [], ?_⟩
        simp only [Except.map] at h
        rw [processLoop_eq] at h
        simpa using (Except.ok.inj h).symm

theorem getKey_mkParent_type (meta : List (String × String)) (idx : Nat)
    (p : List String) (n : Nat) :
    getKey "chunkType" (mkParentRec meta idx p n).metadata = some (MVal.str "parent") := by
  simp only [mkParentRec]
  rw [getKey_setKey_ne (by decide), getKey_setKey_ne (by decide), getKey_setKey_same]

theorem getKey_mkParent_id (meta : List (String × String)) (idx : Nat)
    (p : List String) (n : Nat) :
    getKey "chunkId" (mkParentRec meta idx p n).metadata
      = some (MVal.str ("parent_" ++ toString idx)) := by
  simp only [mkParentRec]
  rw [getKey_setKey_ne (by decide), getKey_setKey_same]

theorem getKey_mkParent_kids (meta : List (String × String)) (idx : Nat)
    (p : List String) (n : Nat) :
    getKey "childChunks" (mkParentRec meta idx p n).metadata
      = some (MVal.list ((List.range n).map fun i => "child_" ++ toString i)) := by
  simp only [mkParentRec]
  rw [getKey_setKey_same]

theorem getKey_mkChild_type (meta : List (String × String)) (pidx cidx : Nat)
    (c : List String) :
    getKey "chunkType" (mkChildRec meta pidx cidx c).metadata = some (MVal.str "child") := by
  simp only [mkChildRec]
  rw [getKey_setKey_ne (by decide), getKey_setKey_ne (by decide), getKey_setKey_same]

theorem getKey_mkChild_id (meta : List (String × String)) (pidx cidx : Nat)
    (c : List String) :
    getKey "chunkId" (mkChildRec meta pidx cidx c).metadata
      = some (MVal.str ("child_" ++ toString cidx)) := by
  simp only [mkChildRec]
  rw [getKey_setKey_ne (by decide), getKey_setKey_same]

theorem getKey_mkChild_parent (meta : List (String × String)) (pidx cidx : Nat)
    (c : List String) :
    getKey "parentChunk" (mkChildRec meta pidx cidx c).metadata
      = some (MVal.str ("parent_" ++ toString pidx)) := by
  simp only [mkChildRec]
  rw [getKey_setKey_same]

/-- The records produced for the 10-token example document
`"a b c d e f g h i j"` with `parentSize = 4`, `childSize = 3`,
`overlap = 1` and empty file metadata. -/
def exampleRecs : List ChunkRec :=
  [⟨"a b c d", [("chunkType", MVal.str "parent"), ("chunkId", MVal.str "parent_0"),
      ("childChunks", MVal.list ["child_0", "child_1"])]⟩,
   ⟨"a b c", [("chunkType", MVal.str "child"), ("chunkId", MVal.str "child_0"),
      ("parentChunk", MVal.str "parent_0")]⟩,
   ⟨"c d", [("chunkType", MVal.str "child"), ("chunkId", MVal.str "child_1"),
      ("parentChunk", MVal.str "parent_0")]⟩,
   ⟨"e f g h", [("chunkType", MVal.str "parent"), ("chunkId", MVal.str "parent_1"),
      ("childChunks", MVal.list ["child_0", "child_1"])]⟩,
   ⟨"e f g", [("chunkType", MVal.str "child"), ("chunkId", MVal.str "child_0"),
      ("parentChunk", MVal.str "parent_1")]⟩,
   ⟨"g h", [("chunkType", MVal.str "child"), ("chunkId", MVal.str "child_1"),
      ("parentChunk", MVal.str "parent_1")]⟩,
   ⟨"i j", [("chunkType", MVal.str "parent"), ("chunkId", MVal.str "parent_2"),
      ("childChunks", MVal.list ["child_0"])]⟩,
   ⟨"i j", [("chunkType", MVal.str "child"), ("chunkId", MVal.str "child_0"),
      ("parentChunk", MVal.str "parent_2")]⟩]

example : processContent 4 3 1 "a b c d e f g h i j" [] = .ok exampleRecs := rfl

/-- Claim C3: the processed chunk records are emitted so that each parent
chunk precedes all of its own child chunks (each parent's block is the
parent record followed by its child records in generation order, and the
blocks appear in original document order); on the 10-token document
`"a b c d e f g h i j"` with `parentSize = 4`, `childSize = 3`,
`overlap = 1` the emitted order is parent0, child0(parent0),
child1(parent0), parent1, child0(parent1), child1(parent1), parent2,
child0(parent2) with parents `"a b c d"`, `"e f g h"`, `"i j"` and
children `"a b c"`, `"c d"`, `"e f g"`, `"g h"`, `"i j"`
(see `exampleRecs`). -/
theorem C3_parent_child_emission_order :
    (∀ (ps cs ov : Nat) (text : String) (meta : List (String × String)),
        0 < ps → ov < cs →
        processContent ps cs ov text meta
          = .ok ((((parentWindows ps (tokenize text)).zip
              ((parentWindows ps (tokenize text)).map (childWindows cs ov))).enum.map
              (chunkBlock meta)).flatten))
    ∧ processContent 4 3 1 "a b c d e f g h i j" [] = .ok exampleRecs :=
  ⟨fun _ _ _ text meta hps hov => processContent_blocks text meta hps hov, rfl⟩

/-- Witness for C3's general conjunct at `parentSize = 2`,
`childSize = 2`, `overlap = 1`, document `"x y z"`. -/
theorem C3_parent_child_emission_order_witness :
    (0 < 2 ∧ 1 < 2)
    ∧ processContent 2 2 1 "x y z" []
        = .ok ((((parentWindows 2 (tokenize "x y z")).zip
            ((parentWindows 2 (tokenize "x y z")).map (childWindows 2 1))).enum.map
            (chunkBlock [])).flatten) :=
  ⟨⟨by decide, by decide⟩,
    C3_parent_child_emission_order.1 2 2 1 "x y z" [] (by decide) (by decide)⟩

/-- Claim C5: in every processed document, each child record's
`parentChunk` names a parent record (present in the output) whose
`childChunks` list contains that child's `chunkId`; a parent's
`childChunks` equals the ordered `chunkId`s of the children generated
from it; ids are assigned as `parent_<index>` and `child_<index>` with the
child index 0-based within its parent; and child ids are not globally
unique across parents (two records of different parents share
`child_0` in the example document). -/
theorem C5_hierarchy_ids :
    (∀ (ps cs ov : Nat) (text : String) (meta : List (String × String))
        (recs : List ChunkRec),
        processContent ps cs ov text meta = .ok recs →
        ∀ r ∈ recs, getKey "chunkType" r.metadata = some (MVal.str "child") →
          ∃ p ∈ recs, getKey "chunkType" p.metadata = some (MVal.str "parent")
            ∧ (∃ pid, getKey "chunkId" p.metadata = some (MVal.str pid)
                ∧ getKey "parentChunk" r.metadata = some (MVal.str pid))
            ∧ (∃ ids cid, getKey "childChunks" p.metadata = some (MVal.list ids)
                ∧ getKey "chunkId" r.metadata = some (MVal.str cid) ∧ cid ∈ ids))
    ∧ (∀ (meta : List (String × String)) (idx : Nat) (p : List String)
        (kids : List (List String)),
        getKey "childChunks" (mkParentRec meta idx p kids.length).metadata
          = some (MVal.list (kids.enum.map fun ce => "child_" ++ toString ce.1))
        ∧ ∀ ce ∈ kids.enum,
            getKey "chunkId" (mkChildRec meta idx ce.1 ce.2).metadata
              = some (MVal.str ("child_" ++ toString ce.1)))
    ∧ (∀ (meta : List (String × String)) (idx : Nat) (p : List String) (n : Nat),
        getKey "chunkId" (mkParentRec meta idx p n).metadata
          = some (MVal.str ("parent_" ++ toString idx)))
    ∧ (∀ (meta : List (String × String)) (pidx cidx : Nat) (c : List String),
        getKey "chunkId" (mkChildRec meta pidx cidx c).metadata
          = some (MVal.str ("child_" ++ toString cidx))
        ∧ getKey "parentChunk" (mkChildRec meta pidx cidx c).metadata
          = some (MVal.str ("parent_" ++ toString pidx)))
    ∧ (∃ r1 r2, processContent 4 3 1 "a b c d e f g h i j" [] = .ok exampleRecs
        ∧ exampleRecs.get? 1 = some r1 ∧ exampleRecs.get? 7 = some r2
        ∧ getKey "chunkId" r1.metadata = getKey "chunkId" r2.metadata
        ∧ getKey "parentChunk" r1.metadata ≠ getKey "parentChunk" r2.metadata) := by
  refine ⟨?_, ?_, getKey_mkParent_id, fun meta pidx cidx c =>
    ⟨getKey_mkChild_id meta pidx cidx c, getKey_mkChild_parent meta pidx cidx c⟩, ?_⟩
  · intro ps cs ov text meta recs h r hr htype
    obtain ⟨kids, rfl⟩ := processContent_ok_shape h
    obtain ⟨blk, hblk, hrblk⟩ := List.mem_flatten.mp hr
    obtain ⟨e, he, rfl⟩ := List.mem_map.mp hblk
    rcases List.mem_cons.mp hrblk with rfl | hrc
    · rw [getKey_mkParent_type] at htype
      simp at htype
    · obtain ⟨ce, hce, rfl⟩ := List.mem_map.mp hrc
      have hplt : ce.1 < e.2.2.length := List.fst_lt_of_mem_enum hce
      refine ⟨mkParentRec meta e.1 e.2.1 e.2.2.length, ?_, getKey_mkParent_type _ _ _ _,
        ⟨"parent_" ++ toString e.1, getKey_mkParent_id _ _ _ _,
          getKey_mkChild_parent _ _ _ _⟩,
        ⟨(List.range e.2.2.length).map fun i => "child_" ++ toString i,
          "child_" ++ toString ce.1, getKey_mkParent_kids _ _ _ _,
          getKey_mkChild_id _ _ _ _, ?_⟩⟩
      · exact List.mem_flatten.mpr ⟨chunkBlock meta e,
          List.mem_map.mpr ⟨e, he, rfl⟩, List.mem_cons_self _ _⟩
      · exact List.mem_map.mpr ⟨ce.1, List.mem_range.mpr hplt, rfl⟩
  · intro meta idx p kids
    refine ⟨?_, fun ce _ => getKey_mkChild_id meta idx ce.1 ce.2⟩
    rw [getKey_mkParent_kids]
    have h1 : kids.enum.map (fun ce => "child_" ++ toString ce.1)
        = (kids.enum.map Prod.fst).map fun i => "child_" ++ toString i := by
      rw [List.map_map]
      rfl
    rw [h1, List.enum_map_fst]
  · exact ⟨⟨"a b c", [("chunkType", MVal.str "child"), ("chunkId", MVal.str "child_0"),
        ("parentChunk", MVal.str "parent_0")]⟩,
      ⟨"i j", [("chunkType", MVal.str "child"), ("chunkId", MVal.str "child_0"),
        ("parentChunk", MVal.str "parent_2")]⟩,
      rfl, rfl, rfl, rfl, by decide⟩

/-- Witness for C5's per-document conjunct on the example document. -/
theorem C5_hierarchy_ids_witness :
    processContent 4 3 1 "a b c d e f g h i j" [] = .ok exampleRecs
    ∧ (∀ r ∈ exampleRecs, getKey "chunkType" r.metadata = some (MVal.str "child") →
        ∃ p ∈ exampleRecs, getKey "chunkType" p.metadata = some (MVal.str "parent")
          ∧ (∃ pid, getKey "chunkId" p.metadata = some (MVal.str pid)
              ∧ getKey "parentChunk" r.metadata = some (MVal.str pid))
          ∧ (∃ ids cid, getKey "childChunks" p.metadata = some (MVal.list ids)
              ∧ getKey "chunkId" r.metadata = some (MVal.str cid) ∧ cid ∈ ids)) :=
  ⟨rfl, C5_hierarchy_ids.1 4 3 1 "a b c d e f g h i j" [] exampleRecs rfl⟩

/-! ### Claim C6: per-file read-failure behavior of the handlers -/

/-- Fuel-driven replace-all on character lists (the fuel is the input
length; every step consumes at least one character). -/
def replaceAllAux : Nat → List Char → List Char → List Char → List Char
  | 0, _, _, s => s
  | _ + 1, _, _, [] => []
  | fuel + 1, pat, rep, c :: cs =>
    if pat ≠ [] ∧ pat.isPrefixOf (c :: cs) then
      rep ++ replaceAllAux fuel pat rep ((c :: cs).drop pat.length)
    else c :: replaceAllAux fuel pat rep cs

/-- Embeds Python `s.replace(pat, rep)` (all occurrences). -/
def pyReplace (s pat rep : String) : String :=
  ⟨replaceAllAux s.data.length pat.data rep.data s.data⟩

/-- Embeds `get_source_bucket_and_key` (lambda_function.py lines 48-56):
strip `s3://`, split on the first slash; no slash raises `ValueError`
(modelled as `none`, caught by the per-file `try`). -/
def parseS3Uri (uri : String) : Option (String × String) :=
  let path := pyReplace uri "s3://" ""
  match path.data.dropWhile (· ≠ '/') with
  | [] => none
  | _ :: rest => some (⟨path.data.takeWhile (· ≠ '/')⟩, ⟨rest⟩)

/-- Input file descriptor for the hierarchical handler: the file metadata
and `originalFileLocation.get('uri')`. -/
structure InFileH where
  fileMetadata : List (String × String)
  uri : Option String
deriving DecidableEq, Repr

/-- Output file descriptor of the hierarchical handler. -/
structure OutFileH where
  uri : String
  fileMetadata : List (String × String)
  contentBatches : List String
deriving DecidableEq, Repr

/-- Per-file body of `lambda_handler` in lambda_function.py (lines
138-181): missing location, an unparseable URI, a failed source read or a
processing failure are all caught (`continue`), yielding `none`; success
yields the output file whose batch keys are `processed/<key>/chunk_<idx>`. -/
def processFileH (read : String → String → Option String) (f : InFileH) :
    Option OutFileH :=
  match f.uri with
  | none => none
  | some uri =>
    match parseS3Uri uri with
    | none => none
    | some bk =>
      match read bk.1 bk.2 with
      | none => none
      | some content =>
        match processContent 1500 300 60 content f.fileMetadata with
        | .error _ => none
        | .ok recs =>
          some
            { uri := uri
              fileMetadata := f.fileMetadata
              contentBatches := (List.range recs.length).map
                fun i => "processed/" ++ bk.2 ++ "/chunk_" ++ toString i }

/-- Embeds `lambda_handler` from lambda_function.py: validation error when
`inputFiles` or `bucketName` is falsy, then a loop that skips failing
files (`continue`). -/
def lambdaHandlerH (bucket : String) (read : String → String → Option String)
    (files : List InFileH) : Except Unit (List OutFileH) :=
  if files = [] ∨ bucket = "" then .error ()
  else .ok (files.filterMap (processFileH read))

/-- Embeds `key.rsplit('.', 1)[0]` from lambda-v1.py. -/
def baseFilename (key : String) : String :=
  match key.data.reverse.dropWhile (· ≠ '.') with
  | [] => key
  | _ :: rest => ⟨rest.reverse⟩

/-- Input file descriptor for the v1 handler. -/
structure InFileV1 where
  contentBatches : List (Option String)
  fileMetadata : List (String × String)
  uri : Option String
deriving DecidableEq, Repr

/-- Output file descriptor of the v1 handler: `(chunk key, metadata key)`
pairs. -/
structure OutFileV1 where
  uri : Option String
  fileMetadata : List (String × String)
  contentBatches : List (String × String)
deriving DecidableEq, Repr

/-- Batch loop of `lambda_handler` in lambda-v1.py (lines 42-94): a
missing batch key raises `ValueError`; a failed read in `read_s3_file`
(lines 107-114) logs and **re-raises**, aborting the whole invocation
(modelled by `Except.error`). -/
def processBatchesV1 (read : String → String → Option String) (bucket : String) :
    List (Option String) → Except Unit (List (String × String))
  | [] => .ok []
  | none :: _ => .error ()
  | some key :: rest =>
    match read bucket key with
    | none => .error ()
    | some content =>
      match processBatchesV1 read bucket rest with
      | .error e => .error e
      | .ok more =>
        .ok (((simpleChunk content).enum.map fun ic =>
          (baseFilename key ++ "_chunk_" ++ toString ic.1 ++ ".txt",
            key ++ ".metadata.json")) ++ more)

/-- File loop of `lambda_handler` in lambda-v1.py: no `try` surrounds the
loop, so any batch failure propagates out of the whole handler. -/
def handlerLoopV1 (read : String → String → Option String) (bucket : String) :
    List InFileV1 → Except Unit (List OutFileV1)
  | [] => .ok []
  | f :: rest =>
    match processBatchesV1 read bucket f.contentBatches with
    | .error e => .error e
    | .ok batches =>
      match handlerLoopV1 read bucket rest with
      | .error e => .error e
      | .ok more =>
        .ok ({ uri := f.uri
               fileMetadata := f.fileMetadata
               contentBatches := batches } :: more)

/-- Embeds `lambda_handler` from lambda-v1.py (validation, then the
unprotected file loop). -/
def lambdaHandlerV1 (bucket : String) (read : String → String → Option String)
    (files : List InFileV1) : Except Unit (List OutFileV1) :=
  if files = [] ∨ bucket = "" then .error ()
  else handlerLoopV1 read bucket files

/-- Claim C6 (amended): in the hierarchical handler of lambda_function.py
a failure to read one file's source object causes only that file to be
skipped (it contributes no output file) while processing continues with
the remaining files. (As stated for the whole program the claim fails:
the v1 and latest handlers re-raise read failures, see the
counterexample.) -/
theorem C6_read_failure_skips_file (bucket : String)
    (read : String → String → Option String) (fs1 fs2 : List InFileH)
    (f : InFileH) (u b k : String)
    (hbucket : bucket ≠ "") (hrest : fs1 ++ fs2 ≠ [])
    (huri : f.uri = some u) (hparse : parseS3Uri u = some (b, k))
    (hread : read b k = none) :
    lambdaHandlerH bucket read (fs1 ++ f :: fs2)
      = lambdaHandlerH bucket read (fs1 ++ fs2) := by
  have hskip : processFileH read f = none := by
    simp only [processFileH, huri, hparse, hread]
  rw [lambdaHandlerH, lambdaHandlerH,
    if_neg (by simp [hbucket]), if_neg (by simp [hbucket, hrest]),
    List.filterMap_append, List.filterMap_append, List.filterMap_cons, hskip]

/-- Witness for C6's amended theorem: a two-file invocation where the
first file's source read fails and the second file remains. -/
theorem C6_read_failure_skips_file_witness :
    (("b" : String) ≠ "" ∧ ([] ++ [({ fileMetadata := [], uri := none } : InFileH)]) ≠ []
      ∧ parseS3Uri "s3://b/bad" = some ("b", "bad"))
    ∧ lambdaHandlerH "b" (fun _ _ => none)
        ([] ++ ({ fileMetadata := [], uri := some "s3://b/bad" } : InFileH)
          :: [{ fileMetadata := [], uri := none }])
      = lambdaHandlerH "b" (fun _ _ => none)
        ([] ++ [{ fileMetadata := [], uri := none }]) :=
  ⟨⟨by decide, by simp, rfl⟩,
    C6_read_failure_skips_file "b" (fun _ _ => none) []
      [{ fileMetadata := [], uri := none }]
      { fileMetadata := [], uri := some "s3://b/bad" } "s3://b/bad" "b" "bad"
      (by decide) (by simp) rfl rfl rfl⟩

/-- Counterexample to claim C6 as stated: in the v1 handler
(lambda-v1.py), with two input files where only the first file's source
object is unreadable, the whole invocation aborts (`Except.error`,
modelling the re-raised read exception) and produces no output at all,
while the same invocation without the failing file succeeds — so a single
unreadable source does abort the whole invocation there, contradicting
"processing continues with the remaining files". -/
theorem C6_counterexample_v1_aborts :
    lambdaHandlerV1 "src"
        (fun b k => if b = "src" ∧ k = "good.txt" then some "hello world" else none)
        [{ contentBatches := [some "bad.txt"], fileMetadata := [],
            uri := some "s3://src/bad.txt" },
          { contentBatches := [some "good.txt"], fileMetadata := [],
            uri := some "s3://src/good.txt" }]
      = .error ()
    ∧ lambdaHandlerV1 "src"
        (fun b k => if b = "src" ∧ k = "good.txt" then some "hello world" else none)
        [{ contentBatches := [some "good.txt"], fileMetadata := [],
            uri := some "s3://src/good.txt" }]
      = .ok [{ uri := some "s3://src/good.txt"
               fileMetadata := []
               contentBatches := [("good_chunk_0.txt", "good.txt.metadata.json")] }] :=
  ⟨rfl, rfl⟩

/-! ### Model of Python's `json` module (used by lambda-latest.py)

Values are mapped to a `Json` type: JSON numbers are modelled as integers
(floats are outside the model) and objects as insertion-ordered key/value
lists (Python dicts). `dumps` follows `json.dumps` with its default
separators `", "` and `": "`, escaping `"` and `\`; `loads` is a
recursive-descent parser with a fuel argument (the input length bounds the
nesting depth Python's recursive parser could handle anyway). -/

inductive Json where
  | null : Json
  | bool : Bool → Json
  | int : Int → Json
  | str : String → Json
  | arr : List Json → Json
  | obj : List (String × Json) → Json

/-- Decimal digit character. -/
def digitChar (n : Nat) : Char := Char.ofNat (48 + n)

/-- Fuel-driven worker for `natToDigits` (the value itself bounds the
number of divisions by ten). -/
def natToDigitsAux : Nat → Nat → List Char
  | 0, n => [digitChar n]
  | fuel + 1, n =>
    if n < 10 then [digitChar n]
    else natToDigitsAux fuel (n / 10) ++ [digitChar (n % 10)]

/-- Decimal digits of a natural number, most significant first. -/
def natToDigits (n : Nat) : List Char := natToDigitsAux n n

/-- Decimal rendering of an integer (`repr` of a Python int). -/
def intToChars (i : Int) : List Char :=
  if i < 0 then '-' :: natToDigits (-i).toNat else natToDigits i.toNat

/-- JSON string escaping of one character (`json.dumps` escapes the quote
and the backslash; other characters of the model pass through). -/
def escChar (c : Char) : List Char :=
  if c = '"' ∨ c = '\\' then ['\\', c] else [c]

/-- JSON string escaping. -/
def escapeChars (l : List Char) : List Char := (l.map escChar).flatten

/-- Serialized key of an object member. -/
def dumpKey (k : String) : List Char := '"' :: escapeChars k.data ++ ['"']

mutual

/-- Embeds `json.dumps` (default separators) at the character level. -/
def dumpV : Json → List Char
  | .null => String.toList "null"
  | .bool true => String.toList "true"
  | .bool false => String.toList "false"
  | .int i => intToChars i
  | .str s => '"' :: escapeChars s.data ++ ['"']
  | .arr es => '[' :: dumpE es ++ [']']
  | .obj ms => lbrace :: dumpM ms ++ [rbrace]

/-- Serialized array elements, separated by `", "`. -/
def dumpE : List Json → List Char
  | [] => []
  | [v] => dumpV v
  | v :: rest => dumpV v ++ [',', ' '] ++ dumpE rest

/-- Serialized object members, separated by `", "`, with `": "` after each
key. -/
def dumpM : List (String × Json) → List Char
  | [] => []
  | [(k, v)] => dumpKey k ++ [':', ' '] ++ dumpV v
  | (k, v) :: rest => dumpKey k ++ [':', ' '] ++ dumpV v ++ [',', ' '] ++ dumpM rest

end

/-- Embeds `json.dumps`. -/
def dumps (v : Json) : String := ⟨dumpV v⟩

/-- Leading-whitespace skipping of the parser. -/
def skipWs : List Char → List Char
  | [] => []
  | c :: r => if c.isWhitespace then skipWs r else c :: r

/-- JSON escape sequences accepted by the parser (`\uXXXX` is outside the
model). -/
def unescape (c : Char) : Option Char :=
  if c = '"' then some '"'
  else if c = '\\' then some '\\'
  else if c = '/' then some '/'
  else if c = 'n' then some '\n'
  else if c = 't' then some '\t'
  else if c = 'r' then some '\r'
  else if c = 'b' then some (Char.ofNat 8)
  else if c = 'f' then some (Char.ofNat 12)
  else none

/-- String-body parser, positioned after the opening quote; returns the
unescaped content and the input after the closing quote. -/
def parseStr : List Char → Option (List Char × List Char)
  | [] => none
  | c :: rest =>
    if c = '"' then some ([], rest)
    else if c = '\\' then
      match rest with
      | [] => none
      | e :: rest2 =>
        match unescape e with
        | none => none
        | some ch =>
          match parseStr rest2 with
          | none => none
          | some (s, r) => some (ch :: s, r)
    else
      match parseStr rest with
      | none => none
      | some (s, r) => some (c :: s, r)

/-- Value of a digit string, most significant first. -/
def digitsToNat (l : List Char) : Nat :=
  l.foldl (fun n c => n * 10 + (c.toNat - 48)) 0

/-- Number parser (integers; a fractional part is not consumed, so a float
literal leaves a dangling suffix and the top-level parse fails). -/
def parseNum (cs : List Char) : Option (Json × List Char) :=
  match cs with
  | '-' :: rest =>
    if rest.takeWhile Char.isDigit = [] then none
    else some (.int (-(digitsToNat (rest.takeWhile Char.isDigit) : Int)),
      rest.dropWhile Char.isDigit)
  | _ =>
    if cs.takeWhile Char.isDigit = [] then none
    else some (.int (digitsToNat (cs.takeWhile Char.isDigit)),
      cs.dropWhile Char.isDigit)

mutual

/-- Embeds the recursive-descent value parser of `json.loads`; the fuel
decreases at each nesting level. -/
def parseVal : Nat → List Char → Option (Json × List Char)
  | 0, _ => none
  | n + 1, cs =>
    match skipWs cs with
    | [] => none
    | c :: rest =>
      if c = lbrace then
        match skipWs rest with
        | [] => none
        | c2 :: rest2 =>
          if c2 = rbrace then some (.obj [], rest2)
          else
            match parseMembers n (c2 :: rest2) with
            | none => none
            | some (ms, r) =>
              some (.obj (ms.foldl (fun d kv => setKey d kv.1 kv.2) []), r)
      else if c = '[' then
        match skipWs rest with
        | [] => none
        | c2 :: rest2 =>
          if c2 = ']' then some (.arr [], rest2)
          else
            match parseElems n (c2 :: rest2) with
            | none => none
            | some (es, r) => some (.arr es, r)
      else if c = '"' then
        match parseStr rest with
        | none => none
        | some (s, r) => some (.str ⟨s⟩, r)
      else if c = 'n' then
        match rest with
        | 'u' :: 'l' :: 'l' :: r => some (.null, r)
        | _ => none
      else if c = 't' then
        match rest with
        | 'r' :: 'u' :: 'e' :: r => some (.bool true, r)
        | _ => none
      else if c = 'f' then
        match rest with
        | 'a' :: 'l' :: 's' :: 'e' :: r => some (.bool false, r)
        | _ => none
      else if c = '-' ∨ c.isDigit then parseNum (c :: rest)
      else none

/-- Object-member parser (at least one member; the empty object is handled
in `parseVal`); consumes the closing brace. -/
def parseMembers : Nat → List Char → Option (List (String × Json) × List Char)
  | 0, _ => none
  | n + 1, cs =>
    match skipWs cs with
    | [] => none
    | c :: rest =>
      if c = '"' then
        match parseStr rest with
        | none => none
        | some (k, r1) =>
          match skipWs r1 with
          | ':' :: r2 =>
            match parseVal n r2 with
            | none => none
            | some (v, r3) =>
              match skipWs r3 with
              | ',' :: r4 =>
                match parseMembers n r4 with
                | none => none
                | some (ms, r5) => some ((⟨k⟩, v) :: ms, r5)
              | c2 :: r4 => if c2 = rbrace then some ([(⟨k⟩, v)], r4) else none
              | [] => none
          | _ => none
      else none

/-- Array-element parser (at least one element); consumes the closing
bracket. -/
def parseElems : Nat → List Char → Option (List Json × List Char)
  | 0, _ => none
  | n + 1, cs =>
    match parseVal n cs with
    | none => none
    | some (v, r1) =>
      match skipWs r1 with
      | ',' :: r2 =>
        match parseElems n r2 with
        | none => none
        | some (es, r3) => some (v :: es, r3)
      | ']' :: r2 => some ([v], r2)
      | _ => none

end

/-- Embeds `json.loads`: parse one value and require only whitespace to
remain. -/
def loads (s : String) : Option Json :=
  match parseVal (s.length + 1) s.data with
  | none => none
  | some (v, rest) => if skipWs rest = [] then some v else none

-- Concrete evaluations of the json model.
example : dumps (.obj [("role", .str "admin")]) = "\x7b\"role\": \"admin\"\x7d" := rfl
example : dumps (.obj []) = "\x7b\x7d" := rfl
example : loads "not-json" = none := rfl
example : loads "\x7b\x7d" = some (.obj []) := rfl
example : loads "\x7b\"a\": 1, \"b\": [true, null]\x7d"
    = some (.obj [("a", .int 1), ("b", .arr [.bool true, .null])]) := rfl
example : loads "\x7b\"role\": \"admin\"\x7d" = some (.obj [("role", .str "admin")]) := rfl
example : loads "-42" = some (.int (-42)) := rfl

/-- Key present in an association list. -/
def hasKey (k : String) (d : List (String × α)) : Bool := (getKey k d).isSome

mutual

/-- Well-formed model values: every object has pairwise-distinct keys
(Python dicts cannot hold duplicates, so every value produced by `loads`
is well-formed). -/
def wsV : Json → Bool
  | .obj ms => wsM ms
  | .arr es => wsE es
  | _ => true

/-- Well-formed member lists: distinct keys, well-formed values. -/
def wsM : List (String × Json) → Bool
  | [] => true
  | (k, v) :: rest => !(hasKey k rest) && wsV v && wsM rest

/-- Well-formed element lists. -/
def wsE : List Json → Bool
  | [] => true
  | v :: rest => wsV v && wsE rest

end

mutual

/-- Fuel needed by `parseVal` to parse the serialization of a value: one
unit per nesting level. -/
def needV : Json → Nat
  | .obj ms => needM ms + 1
  | .arr es => needE es + 1
  | _ => 1

/-- Fuel needed by `parseMembers`. -/
def needM : List (String × Json) → Nat
  | [] => 0
  | (_, v) :: rest => max (needV v) (needM rest) + 1

/-- Fuel needed by `parseElems`. -/
def needE : List Json → Nat
  | [] => 0
  | v :: rest => max (needV v) (needE rest) + 1

end

/-! ### Claims C4, C7, C10: metadata enrichment of lambda-latest.py -/

/-- One content item of an intermediate file (`fileContents` entry):
`contentType`, `contentMetadata` and `contentBody`, each possibly absent
(`content.get(...)` defaults apply). -/
structure LContent where
  contentType : Option String
  contentMetadata : Option (List (String × Json))
  contentBody : Option String

/-- Embeds the per-item metadata enrichment of `process_content` in
lambda-latest.py (lines 56-82): read `contentMetadata.get('metadata',
'{}')`, `json.loads` it, set `role` in the parsed dict when role is
non-empty, re-serialize; on a parse failure replace the value with
`json.dumps({'role': role})` for a non-empty role and `'{}'` otherwise.
`Except.error` models the uncaught `TypeError` raised when the stored
value is not a string (`json.loads` of a non-string) or when the parsed
value is not a dict and a non-empty role is assigned into it
(`metadata_dict['role'] = role`). -/
def enrichMeta (role : String) (cm : List (String × Json)) :
    Except Unit (List (String × Json)) :=
  match (getKey "metadata" cm).getD (Json.str "\x7b\x7d") with
  | Json.str s =>
    match loads s with
    | some (Json.obj d) =>
      let d2 := if role = "" then d else setKey d "role" (Json.str role)
      .ok (setKey cm "metadata" (Json.str (dumps (Json.obj d2))))
    | some v =>
      if role = "" then .ok (setKey cm "metadata" (Json.str (dumps v)))
      else .error ()
    | none =>
      .ok (setKey cm "metadata"
        (Json.str (if role = "" then "\x7b\x7d"
          else dumps (Json.obj [("role", Json.str role)]))))
  | _ => .error ()

/-- Error-propagating map (a Python `for` loop whose body may raise). -/
def mapE (f : α → Except ε β) : List α → Except ε (List β)
  | [] => .ok []
  | x :: xs =>
    match f x with
    | .error e => .error e
    | .ok y =>
      match mapE f xs with
      | .error e => .error e
      | .ok ys => .ok (y :: ys)

/-- Embeds `process_content` from lambda-latest.py (lines 50-84): enrich
each item's metadata and rebuild the item with defaulted `contentType` and
`contentBody`. -/
def processItem (role : String) (c : LContent) : Except Unit LContent :=
  match enrichMeta role (c.contentMetadata.getD []) with
  | .error e => .error e
  | .ok cm2 =>
    .ok { contentType := some (c.contentType.getD "")
          contentMetadata := some cm2
          contentBody := some (c.contentBody.getD "") }

/-- Embeds `process_content` from lambda-latest.py over the whole
`fileContents` list. -/
def processContentLatest (role : String) (items : List LContent) :
    Except Unit (List LContent) :=
  mapE (processItem role) items

/-- Modelled from the spec: the "flat schema" merge of spec section 4.3
("when role is non-empty, set `contentMetadata["role"] = role`, leaving
all other keys untouched"; applying it with an empty role is a no-op,
spec section 8). No implementation exists under `src/`. -/
def flatEnrich (role : String) (cm : List (String × Json)) :
    List (String × Json) :=
  if role = "" then cm else setKey cm "role" (Json.str role)

-- Concrete evaluations of the enrichment.
example : enrichMeta "admin" [("metadata", Json.str "not-json")]
    = .ok [("metadata", Json.str "\x7b\"role\": \"admin\"\x7d")] := rfl
example : enrichMeta "" [("metadata", Json.str "not-json")]
    = .ok [("metadata", Json.str "\x7b\x7d")] := rfl
example : enrichMeta "admin" [("metadata", Json.str "\x7b\"a\": 1\x7d")]
    = .ok [("metadata", Json.str "\x7b\"a\": 1, \"role\": \"admin\"\x7d")] := rfl
example : enrichMeta "admin" [("metadata", Json.str "5")] = .error () := rfl
example : enrichMeta "admin" [("metadata", Json.int 5)] = .error () := rfl

/-! ### Parser / serializer round trip: support lemmas -/

/-- Input whose head cannot be mistaken for more digits of a number. -/
def numSafe : List Char → Bool
  | [] => true
  | c :: _ => !c.isDigit

theorem skipWs_cons_not_ws {c : Char} (h : c.isWhitespace = false) (r : List Char) :
    skipWs (c :: r) = c :: r := by
  simp [skipWs, h]

theorem skipWs_cons_ws {c : Char} (h : c.isWhitespace = true) (r : List Char) :
    skipWs (c :: r) = skipWs r := by
  simp [skipWs, h]

theorem skipWs_idem : ∀ cs : List Char, skipWs (skipWs cs) = skipWs cs := by
  intro cs
  induction cs with
  | nil => rfl
  | cons c r ih =>
    by_cases h : c.isWhitespace
    · rw [skipWs_cons_ws h, ih]
    · rw [skipWs_cons_not_ws (by simp [h]), skipWs_cons_not_ws (by simp [h])]

theorem parseVal_skip_ws {c : Char} (h : c.isWhitespace = true) (n : Nat)
    (cs : List Char) : parseVal n (c :: cs) = parseVal n cs := by
  cases n with
  | zero => rfl
  | succ n => simp only [parseVal, skipWs_cons_ws h]

theorem parseMembers_skip_ws {c : Char} (h : c.isWhitespace = true) (n : Nat)
    (cs : List Char) : parseMembers n (c :: cs) = parseMembers n cs := by
  cases n with
  | zero => rfl
  | succ n => simp only [parseMembers, skipWs_cons_ws h]

theorem digitChar_lt_10 {d : Nat} (h : d < 10) :
    (digitChar d).isDigit = true ∧ (digitChar d).toNat = 48 + d
    ∧ (digitChar d).isWhitespace = false ∧ ¬ (digitChar d) = ']'
    ∧ ¬ (digitChar d) = '-' ∧ ¬ (digitChar d) = lbrace
    ∧ ¬ (digitChar d) = '[' ∧ ¬ (digitChar d) = '"'
    ∧ ¬ (digitChar d) = 'n' ∧ ¬ (digitChar d) = 't'
    ∧ ¬ (digitChar d) = 'f' := by
  interval_cases d <;> exact ⟨by decide, by decide, by decide, by decide, by decide,
    by decide, by decide, by decide, by decide, by decide, by decide⟩

theorem digitsToNat_append_singleton (l : List Char) (c : Char) :
    digitsToNat (l ++ [c]) = digitsToNat l * 10 + (c.toNat - 48) := by
  simp [digitsToNat, List.foldl_append]

theorem natToDigitsAux_spec : ∀ (fuel n : Nat), n ≤ fuel →
    (∃ d t, d < 10 ∧ natToDigitsAux fuel n = digitChar d :: t)
    ∧ (∀ c ∈ natToDigitsAux fuel n, c.isDigit = true)
    ∧ digitsToNat (natToDigitsAux fuel n) = n := by
  intro fuel
  induction fuel with
  | zero =>
    intro n hn
    have h0 : n = 0 := by omega
    subst h0
    refine ⟨⟨0, [], by omega, rfl⟩, ?_, by decide⟩
    intro c hc
    rw [List.mem_singleton.mp hc]
    exact (digitChar_lt_10 (by omega)).1
  | succ fuel ih =>
    intro n hn
    by_cases h : n < 10
    · rw [natToDigitsAux, if_pos h]
      refine ⟨⟨n, [], h, rfl⟩, ?_, ?_⟩
      · intro c hc
        rw [List.mem_singleton.mp hc]
        exact (digitChar_lt_10 h).1
      · show digitsToNat [digitChar n] = n
        have := (digitChar_lt_10 h).2.1
        simp [digitsToNat, this]
    · rw [natToDigitsAux, if_neg h]
      have hdiv : n / 10 ≤ fuel := by
        have hlt : n / 10 < n := Nat.div_lt_self (by omega) (by omega)
        omega
      obtain ⟨⟨d, t, hd, hhead⟩, hdig, hval⟩ := ih (n / 10) hdiv
      have hm : n % 10 < 10 := Nat.mod_lt _ (by omega)
      refine ⟨⟨d, t ++ [digitChar (n % 10)], hd, by rw [hhead]; rfl⟩, ?_, ?_⟩
      · intro c hc
        rcases List.mem_append.mp hc with hmem | hmem
        · exact hdig c hmem
        · rw [List.mem_singleton.mp hmem]
          exact (digitChar_lt_10 hm).1
      · rw [digitsToNat_append_singleton, hval, (digitChar_lt_10 hm).2.1]
        omega

theorem natToDigits_spec (n : Nat) :
    (∃ d t, d < 10 ∧ natToDigits n = digitChar d :: t)
    ∧ (∀ c ∈ natToDigits n, c.isDigit = true)
    ∧ digitsToNat (natToDigits n) = n :=
  natToDigitsAux_spec n n le_rfl

theorem isDigit_not_minus {c : Char} (h : c.isDigit = true) : ¬ c = '-' := by
  intro he
  subst he
  exact absurd h (by decide)

theorem takeWhile_digits_append {ds rest : List Char}
    (hds : ∀ c ∈ ds, c.isDigit = true) (hrest : numSafe rest = true) :
    (ds ++ rest).takeWhile Char.isDigit = ds
    ∧ (ds ++ rest).dropWhile Char.isDigit = rest := by
  induction ds with
  | nil =>
    cases rest with
    | nil => exact ⟨rfl, rfl⟩
    | cons c r =>
      have hc : c.isDigit = false := by
        simp [numSafe] at hrest
        simp [hrest]
      constructor
      · simp [List.takeWhile, hc]
      · simp [List.dropWhile, hc]
  | cons d ds ih =>
    have hd : d.isDigit = true := hds d (by simp)
    obtain ⟨h1, h2⟩ := ih (fun c hc => hds c (by simp [hc]))
    constructor
    · simp [List.takeWhile, hd, h1]
    · simp [List.dropWhile, hd, h2]

theorem parseStr_rt : ∀ (l tail : List Char),
    parseStr (escapeChars l ++ '"' :: tail) = some (l, tail) := by
  intro l
  induction l with
  | nil =>
    intro tail
    show parseStr ('"' :: tail) = some ([], tail)
    rw [parseStr.eq_def]
    simp
  | cons c l ih =>
    intro tail
    have hesc : escapeChars (c :: l) = escChar c ++ escapeChars l := by
      simp [escapeChars]
    rw [hesc]
    by_cases hc : c = '"' ∨ c = '\\'
    · have he : escChar c = ['\\', c] := by simp [escChar, hc]
      rw [he]
      have hu : unescape c = some c := by
        rcases hc with rfl | rfl <;> rfl
      show parseStr ('\\' :: c :: (escapeChars l ++ '"' :: tail)) = some (c :: l, tail)
      rw [parseStr.eq_def]
      simp [hu, ih tail]
    · have he : escChar c = [c] := by simp [escChar, hc]
      rw [he]
      push_neg at hc
      show parseStr (c :: (escapeChars l ++ '"' :: tail)) = some (c :: l, tail)
      rw [parseStr.eq_def]
      simp [hc.1, hc.2, ih tail]

theorem parseNum_rt (i : Int) (rest : List Char) (hrest : numSafe rest = true) :
    parseNum (intToChars i ++ rest) = some (.int i, rest) := by
  by_cases hneg : i < 0
  · rw [intToChars, if_pos hneg]
    obtain ⟨_, hdig, hval⟩ := natToDigits_spec (-i).toNat
    obtain ⟨htake, hdrop⟩ := takeWhile_digits_append hdig hrest
    obtain ⟨d, t, hd, hhead⟩ := (natToDigits_spec (-i).toNat).1
    show parseNum ('-' :: (natToDigits (-i).toNat ++ rest)) = some (.int i, rest)
    rw [parseNum.eq_def]
    simp only []
    rw [htake, hdrop]
    rw [if_neg (by rw [hhead]; simp)]
    rw [hval]
    rw [Int.toNat_of_nonneg (by omega : (0 : Int) ≤ -i), neg_neg]
  · rw [intToChars, if_neg hneg]
    obtain ⟨⟨d, t, hd, hhead⟩, hdig, hval⟩ := natToDigits_spec i.toNat
    obtain ⟨htake, hdrop⟩ := takeWhile_digits_append hdig hrest
    rw [hhead] at htake hdrop ⊢
    have hdm : ¬ (digitChar d) = '-' := (digitChar_lt_10 hd).2.2.2.2.1
    show parseNum (digitChar d :: (t ++ rest)) = some (.int i, rest)
    rw [parseNum.eq_def]
    split
    · rename_i r heq
      have hcon : digitChar d = '-' := (List.cons.injEq _ _ _ _ ▸ heq).1
      exact absurd hcon hdm
    · have hc : digitChar d :: (t ++ rest) = (digitChar d :: t) ++ rest := rfl
      rw [hc, htake, hdrop]
      rw [if_neg (by simp)]
      rw [← hhead, hval, Int.toNat_of_nonneg (by omega)]

theorem dumpV_head (v : Json) :
    ∃ c t, dumpV v = c :: t ∧ c.isWhitespace = false ∧ ¬ c = ']' := by
  cases v with
  | null => exact ⟨'n', _, rfl, by decide, by decide⟩
  | bool b =>
    cases b with
    | true => exact ⟨'t', _, rfl, by decide, by decide⟩
    | false => exact ⟨'f', _, rfl, by decide, by decide⟩
  | str s => exact ⟨'"', _, rfl, by decide, by decide⟩
  | arr es => exact ⟨'[', _, rfl, by decide, by decide⟩
  | obj ms => exact ⟨lbrace, _, rfl, by decide, by decide⟩
  | int i =>
    by_cases hneg : i < 0
    · refine ⟨'-', natToDigits (-i).toNat, ?_, by decide, by decide⟩
      rw [dumpV, intToChars, if_pos hneg]
    · obtain ⟨d, t, hd, hhead⟩ := (natToDigits_spec i.toNat).1
      refine ⟨digitChar d, t, ?_, (digitChar_lt_10 hd).2.2.1, ?_⟩
      · rw [dumpV, intToChars, if_neg hneg, hhead]
      · exact (digitChar_lt_10 hd).2.2.2.1

theorem needV_pos (v : Json) : 1 ≤ needV v := by
  cases v <;> simp [needV]

theorem needM_pos {ms : List (String × Json)} (h : ms ≠ []) : 1 ≤ needM ms := by
  cases ms with
  | nil => exact absurd rfl h
  | cons kv rest => obtain ⟨k, v⟩ := kv; simp [needM]

theorem needE_pos {es : List Json} (h : es ≠ []) : 1 ≤ needE es := by
  cases es with
  | nil => exact absurd rfl h
  | cons v rest => simp [needE]

theorem getKey_setKey (j k : String) (v : α) (d : List (String × α)) :
    getKey j (setKey d k v) = if j = k then some v else getKey j d := by
  by_cases h : j = k
  · subst h
    rw [if_pos rfl, getKey_setKey_same]
  · rw [if_neg h, getKey_setKey_ne h]

theorem hasKey_cons (k k1 : String) (v1 : α) (rest : List (String × α)) :
    hasKey k ((k1, v1) :: rest) = ((k1 = k) || hasKey k rest) := by
  by_cases h : k1 = k <;> simp [hasKey, getKey, h]

theorem mem_hasKey {kv : String × α} {d : List (String × α)} (h : kv ∈ d) :
    hasKey kv.1 d = true := by
  induction d with
  | nil => simp at h
  | cons p rest ih =>
    obtain ⟨k1, v1⟩ := p
    rcases List.mem_cons.mp h with rfl | hmem
    · simp [hasKey_cons]
    · rw [hasKey_cons, ih hmem, Bool.or_true]

theorem setKey_not_mem {k : String} {d : List (String × α)}
    (h : hasKey k d = false) (v : α) : setKey d k v = d ++ [(k, v)] := by
  induction d with
  | nil => rfl
  | cons p rest ih =>
    obtain ⟨k1, v1⟩ := p
    rw [hasKey_cons] at h
    simp only [Bool.or_eq_false_iff] at h
    have hne : ¬ k1 = k := by
      intro he
      rw [he] at h
      simp at h
    rw [setKey, if_neg hne, ih (by simp [h.2])]
    rfl

theorem foldl_setKey_eq :
    ∀ (ms acc : List (String × Json)), wsM ms = true →
      (∀ kv ∈ ms, hasKey kv.1 acc = false) →
      ms.foldl (fun d kv => setKey d kv.1 kv.2) acc = acc ++ ms := by
  intro ms
  induction ms with
  | nil => intro acc _ _; simp
  | cons kv rest ih =>
    intro acc hws hacc
    obtain ⟨k, v⟩ := kv
    simp only [wsM, Bool.and_eq_true, Bool.not_eq_true'] at hws
    rw [List.foldl_cons]
    show List.foldl _ (setKey acc k v) rest = acc ++ (k, v) :: rest
    rw [setKey_not_mem (hacc (k, v) (by simp)) v]
    rw [ih (acc ++ [(k, v)]) hws.2]
    · simp
    · intro kv2 hkv2
      have h1 : hasKey kv2.1 acc = false := hacc kv2 (by simp [hkv2])
      have h2 : ¬ k = kv2.1 := by
        intro he
        have := mem_hasKey hkv2
        rw [← he] at this
        rw [this] at hws
        simp at hws
      clear ih hacc
      induction acc with
      | nil => simp [hasKey_cons, h2, hasKey, getKey]
      | cons p acc2 ih2 =>
        obtain ⟨ka, va⟩ := p
        rw [List.cons_append, hasKey_cons]
        rw [hasKey_cons] at h1
        simp only [Bool.or_eq_false_iff] at h1
        rw [ih2 (by simp [h1.2])]
        simp [h1.1]

theorem wsM_setKey {ms : List (String × Json)} {v : Json}
    (hms : wsM ms = true) (hv : wsV v = true) (k : String) :
    wsM (setKey ms k v) = true := by
  induction ms with
  | nil =>
    show wsM [(k, v)] = true
    simp [wsM, hasKey, getKey, hv]
  | cons p rest ih =>
    obtain ⟨k1, v1⟩ := p
    simp only [wsM, Bool.and_eq_true, Bool.not_eq_true'] at hms
    by_cases h : k1 = k
    · subst h
      rw [setKey, if_pos rfl]
      simp [wsM, hms.1.1, hms.2, hv]
    · rw [setKey, if_neg h]
      have hhk : hasKey k1 (setKey rest k v) = false := by
        simp only [hasKey, getKey_setKey]
        rw [if_neg h]
        simpa [hasKey] using hms.1.1
      simp [wsM, hhk, hms.1.2, ih hms.2]

theorem wsM_foldl_setKey :
    ∀ (ms acc : List (String × Json)), wsM acc = true →
      (∀ kv ∈ ms, wsV kv.2 = true) →
      wsM (ms.foldl (fun d kv => setKey d kv.1 kv.2) acc) = true := by
  intro ms
  induction ms with
  | nil => intro acc h _; exact h
  | cons kv rest ih =>
    intro acc hacc hvals
    rw [List.foldl_cons]
    exact ih _ (wsM_setKey hacc (hvals kv (by simp)) kv.1)
      (fun kv2 h2 => hvals kv2 (by simp [h2]))

theorem parseNum_int {cs : List Char} {v : Json} {r : List Char}
    (h : parseNum cs = some (v, r)) : ∃ i, v = Json.int i := by
  rw [parseNum.eq_def] at h
  split at h
  · split at h
    · exact absurd h (by simp)
    · simp only [Option.some.injEq, Prod.mk.injEq] at h
      obtain ⟨rfl, rfl⟩ := h
      exact ⟨_, rfl⟩
  · split at h
    · exact absurd h (by simp)
    · simp only [Option.some.injEq, Prod.mk.injEq] at h
      obtain ⟨rfl, rfl⟩ := h
      exact ⟨_, rfl⟩

theorem parse_ws : ∀ n : Nat,
    (∀ cs v r, parseVal n cs = some (v, r) → wsV v = true)
    ∧ (∀ cs ms r, parseMembers n cs = some (ms, r) → ∀ kv ∈ ms, wsV kv.2 = true)
    ∧ (∀ cs es r, parseElems n cs = some (es, r) → wsE es = true) := by
  intro n
  induction n with
  | zero =>
    refine ⟨?_, ?_, ?_⟩
    · intro cs v r h
      exact absurd h (by simp [parseVal])
    · intro cs ms r h
      exact absurd h (by simp [parseMembers])
    · intro cs es r h
      exact absurd h (by simp [parseElems])
  | succ n ih =>
    obtain ⟨ihV, ihM, ihE⟩ := ih
    refine ⟨?_, ?_, ?_⟩
    · intro cs v r h
      simp only [parseVal] at h
      split at h
      · exact absurd h (by simp)
      · rename_i c rest hskip
        split at h
        · -- object branch
          split at h
          · exact absurd h (by simp)
          · rename_i c2 rest2 hskip2
            split at h
            · simp only [Option.some.injEq, Prod.mk.injEq] at h
              obtain ⟨rfl, rfl⟩ := h
              rfl
            · split at h
              · exact absurd h (by simp)
              · rename_i pr ms r2 heq
                simp only [Option.some.injEq, Prod.mk.injEq] at h
                obtain ⟨rfl, rfl⟩ := h
                show wsM _ = true
                exact wsM_foldl_setKey ms [] rfl fun kv hkv => ihM _ ms r2 heq kv hkv
        · split at h
          · -- array branch
            split at h
            · exact absurd h (by simp)
            · rename_i c2 rest2 hskip2
              split at h
              · simp only [Option.some.injEq, Prod.mk.injEq] at h
                obtain ⟨rfl, rfl⟩ := h
                rfl
              · split at h
                · exact absurd h (by simp)
                · rename_i pr es r2 heq
                  simp only [Option.some.injEq, Prod.mk.injEq] at h
                  obtain ⟨rfl, rfl⟩ := h
                  exact ihE _ es r2 heq
          · split at h
            · -- string branch
              split at h
              · exact absurd h (by simp)
              · rename_i pr sres r2 heq
                simp only [Option.some.injEq, Prod.mk.injEq] at h
                obtain ⟨rfl, rfl⟩ := h
                rfl
            · split at h
              · -- null branch
                split at h
                · simp only [Option.some.injEq, Prod.mk.injEq] at h
                  obtain ⟨rfl, rfl⟩ := h
                  rfl
                · exact absurd h (by simp)
              · split at h
                · -- true branch
                  split at h
                  · simp only [Option.some.injEq, Prod.mk.injEq] at h
                    obtain ⟨rfl, rfl⟩ := h
                    rfl
                  · exact absurd h (by simp)
                · split at h
                  · -- false branch
                    split at h
                    · simp only [Option.some.injEq, Prod.mk.injEq] at h
                      obtain ⟨rfl, rfl⟩ := h
                      rfl
                    · exact absurd h (by simp)
                  · split at h
                    · -- number branch
                      obtain ⟨i, hi⟩ := parseNum_int h
                      rw [hi]
                      rfl
                    · exact absurd h (by simp)
    · intro cs ms r h
      simp only [parseMembers] at h
      split at h
      · exact absurd h (by simp)
      · rename_i c rest hskip
        split at h
        · -- key string
          split at h
          · exact absurd h (by simp)
          · rename_i pr k r1 heqk
            split at h
            · rename_i r2 hcolon
              split at h
              · exact absurd h (by simp)
              · rename_i pr2 v r3 heqv
                split at h
                · -- comma: more members
                  rename_i r4 hcomma
                  split at h
                  · exact absurd h (by simp)
                  · rename_i pr3 ms2 r5 heqm
                    simp only [Option.some.injEq, Prod.mk.injEq] at h
                    obtain ⟨rfl, rfl⟩ := h
                    intro kv hkv
                    rcases List.mem_cons.mp hkv with rfl | hmem
                    · exact ihV _ v r3 heqv
                    · exact ihM _ ms2 r5 heqm kv hmem
                · -- closing brace
                  rename_i c2 r4 hbrace
                  split at h
                  · simp only [Option.some.injEq, Prod.mk.injEq] at h
                    obtain ⟨rfl, rfl⟩ := h
                    intro kv hkv
                    rw [List.mem_singleton.mp hkv]
                    exact ihV _ v r3 heqv
                  · exact absurd h (by simp)
                · exact absurd h (by simp)
            · exact absurd h (by simp)
        · exact absurd h (by simp)
    · intro cs es r h
      simp only [parseElems] at h
      split at h
      · exact absurd h (by simp)
      · rename_i pr v r1 heqv
        split at h
        · -- comma: more elements
          rename_i r2 hcomma
          split at h
          · exact absurd h (by simp)
          · rename_i pr2 es2 r3 heqe
            simp only [Option.some.injEq, Prod.mk.injEq] at h
            obtain ⟨rfl, rfl⟩ := h
            show wsE (v :: es2) = true
            rw [wsE, ihV _ v r1 heqv, ihE _ es2 r3 heqe]
            rfl
        · -- closing bracket
          rename_i r2 hbrk
          simp only [Option.some.injEq, Prod.mk.injEq] at h
          obtain ⟨rfl, rfl⟩ := h
          show wsE [v] = true
          rw [wsE, ihV _ v r1 heqv]
          rfl
        · exact absurd h (by simp)

theorem parseElems_skip_ws {c : Char} (h : c.isWhitespace = true) (n : Nat)
    (cs : List Char) : parseElems n (c :: cs) = parseElems n cs := by
  cases n with
  | zero => rfl
  | succ n => simp only [parseElems, parseVal_skip_ws h]

theorem parse_rt_val_step (n : Nat)
    (ihM : ∀ (ms : List (String × Json)) (rest : List Char), ms ≠ [] → wsM ms = true →
      needM ms ≤ n → parseMembers n (dumpM ms ++ rbrace :: rest) = some (ms, rest))
    (ihE : ∀ (es : List Json) (rest : List Char), es ≠ [] → wsE es = true →
      needE es ≤ n → parseElems n (dumpE es ++ ']' :: rest) = some (es, rest)) :
    ∀ (v : Json) (rest : List Char), wsV v = true → needV v ≤ n + 1 →
      numSafe rest = true → parseVal (n + 1) (dumpV v ++ rest) = some (v, rest) := by
  intro v rest hws hneed hsafe
  cases v with
  | null => rfl
  | bool b => cases b <;> rfl
  | int i =>
    by_cases hneg : i < 0
    · have hin : dumpV (.int i) ++ rest = '-' :: (natToDigits (-i).toNat ++ rest) := by
        simp [dumpV, intToChars, hneg]
      have hpn := parseNum_rt i rest hsafe
      rw [show intToChars i ++ rest = '-' :: (natToDigits (-i).toNat ++ rest) from by
        simp [intToChars, hneg]] at hpn
      rw [hin]
      simp only [parseVal]
      simp +decide [skipWs, hpn]
    · obtain ⟨d, t, hd, hhead⟩ := (natToDigits_spec i.toNat).1
      obtain ⟨h1, h2, h3, h4, h5, h6, h7, h8, h9, h10, h11⟩ := digitChar_lt_10 hd
      have hin : dumpV (.int i) ++ rest = digitChar d :: (t ++ rest) := by
        simp [dumpV, intToChars, hneg, hhead]
      have hpn := parseNum_rt i rest hsafe
      rw [show intToChars i ++ rest = digitChar d :: (t ++ rest) from by
        simp [intToChars, hneg, hhead]] at hpn
      rw [hin]
      simp only [parseVal]
      rw [skipWs_cons_not_ws h3]
      simp [h6, h7, h8, h9, h10, h11, h1, hpn]
  | str s =>
    have hin : dumpV (.str s) ++ rest = '"' :: (escapeChars s.data ++ '"' :: rest) := by
      simp [dumpV]
    rw [hin]
    simp only [parseVal]
    simp +decide [skipWs, parseStr_rt s.data rest]
  | obj ms =>
    have hwsm : wsM ms = true := hws
    have hneedm : needM ms ≤ n := by
      simp only [needV] at hneed
      omega
    cases ms with
    | nil => rfl
    | cons kv ms2 =>
      have hT : ∃ T, dumpM (kv :: ms2) = '"' :: T := by
        obtain ⟨k, v⟩ := kv
        cases ms2 with
        | nil =>
          exact ⟨escapeChars k.data ++ '"' :: ':' :: ' ' :: dumpV v,
            by simp [dumpM, dumpKey]⟩
        | cons kv2 ms3 =>
          exact ⟨escapeChars k.data
              ++ '"' :: ':' :: ' ' :: (dumpV v ++ ',' :: ' ' :: dumpM (kv2 :: ms3)),
            by simp [dumpM, dumpKey]⟩
      obtain ⟨T, hT⟩ := hT
      have hin : dumpV (.obj (kv :: ms2)) ++ rest
          = lbrace :: ('"' :: (T ++ rbrace :: rest)) := by
        simp [dumpV, hT]
      have hm : parseMembers n ('"' :: (T ++ rbrace :: rest)) = some (kv :: ms2, rest) := by
        rw [show ('"' :: (T ++ rbrace :: rest) : List Char)
            = dumpM (kv :: ms2) ++ rbrace :: rest from by rw [hT]; rfl]
        exact ihM (kv :: ms2) rest (by simp) hwsm hneedm
      have hfold : (kv :: ms2).foldl (fun d kv2 => setKey d kv2.1 kv2.2) [] = kv :: ms2 := by
        rw [foldl_setKey_eq (kv :: ms2) [] hwsm (fun kv2 _ => rfl)]
        rfl
      rw [hin]
      simp only [parseVal]
      simp +decide [skipWs, hm, hfold]
  | arr es =>
    have hwse : wsE es = true := hws
    have hneede : needE es ≤ n := by
      simp only [needV] at hneed
      omega
    cases es with
    | nil => rfl
    | cons v es2 =>
      obtain ⟨c, t, hdv, hnws, hnbr⟩ := dumpV_head v
      have hT : ∃ T, dumpE (v :: es2) = c :: T := by
        cases es2 with
        | nil => exact ⟨t, by simp [dumpE, hdv]⟩
        | cons w es3 => exact ⟨t ++ ',' :: ' ' :: dumpE (w :: es3), by simp [dumpE, hdv]⟩
      obtain ⟨T, hT⟩ := hT
      have hin : dumpV (.arr (v :: es2)) ++ rest = '[' :: (c :: (T ++ ']' :: rest)) := by
        simp [dumpV, hT]
      have he : parseElems n (c :: (T ++ ']' :: rest)) = some (v :: es2, rest) := by
        rw [show (c :: (T ++ ']' :: rest) : List Char)
            = dumpE (v :: es2) ++ ']' :: rest from by rw [hT]; rfl]
        exact ihE (v :: es2) rest (by simp) hwse hneede
      rw [hin]
      simp only [parseVal]
      rw [show skipWs ('[' :: (c :: (T ++ ']' :: rest))) = '[' :: (c :: (T ++ ']' :: rest))
        from skipWs_cons_not_ws (by decide) _]
      simp only [if_pos, if_neg (show ¬ ('[' : Char) = lbrace by decide), if_pos rfl]
      rw [skipWs_cons_not_ws hnws]
      simp +decide [hnbr, he]

theorem parse_rt_members_step (n : Nat)
    (ihV : ∀ (v : Json) (rest : List Char), wsV v = true → needV v ≤ n →
      numSafe rest = true → parseVal n (dumpV v ++ rest) = some (v, rest))
    (ihM : ∀ (ms : List (String × Json)) (rest : List Char), ms ≠ [] → wsM ms = true →
      needM ms ≤ n → parseMembers n (dumpM ms ++ rbrace :: rest) = some (ms, rest)) :
    ∀ (ms : List (String × Json)) (rest : List Char), ms ≠ [] → wsM ms = true →
      needM ms ≤ n + 1 → parseMembers (n + 1) (dumpM ms ++ rbrace :: rest) = some (ms, rest) := by
  intro ms rest hne hws hneed
  cases ms with
  | nil => exact absurd rfl hne
  | cons kv ms2 =>
    obtain ⟨k, v⟩ := kv
    simp only [wsM, Bool.and_eq_true, Bool.not_eq_true'] at hws
    obtain ⟨⟨hkk, hwv⟩, hwm⟩ := hws
    simp only [needM] at hneed
    have hmax : max (needV v) (needM ms2) ≤ n := by omega
    have hnv : needV v ≤ n := le_trans (Nat.le_max_left _ _) hmax
    have hnm : needM ms2 ≤ n := le_trans (Nat.le_max_right _ _) hmax
    cases ms2 with
    | nil =>
      have hin : dumpM [(k, v)] ++ rbrace :: rest
          = '"' :: (escapeChars k.data
            ++ '"' :: ':' :: ' ' :: (dumpV v ++ rbrace :: rest)) := by
        simp [dumpM, dumpKey]
      have hv : parseVal n (' ' :: (dumpV v ++ rbrace :: rest)) = some (v, rbrace :: rest) := by
        rw [parseVal_skip_ws (by decide)]
        exact ihV v (rbrace :: rest) hwv hnv rfl
      rw [hin]
      simp only [parseMembers]
      simp +decide [skipWs, parseStr_rt k.data, hv]
    | cons kv2 ms3 =>
      have hin : dumpM ((k, v) :: kv2 :: ms3) ++ rbrace :: rest
          = '"' :: (escapeChars k.data ++ '"' :: ':' :: ' '
            :: (dumpV v ++ ',' :: ' ' :: (dumpM (kv2 :: ms3) ++ rbrace :: rest))) := by
        simp [dumpM, dumpKey]
      have hv : parseVal n (' ' :: (dumpV v ++ ',' :: ' '
          :: (dumpM (kv2 :: ms3) ++ rbrace :: rest)))
          = some (v, ',' :: ' ' :: (dumpM (kv2 :: ms3) ++ rbrace :: rest)) := by
        rw [parseVal_skip_ws (by decide)]
        exact ihV v _ hwv hnv rfl
      have hm : parseMembers n (' ' :: (dumpM (kv2 :: ms3) ++ rbrace :: rest))
          = some (kv2 :: ms3, rest) := by
        rw [parseMembers_skip_ws (by decide)]
        exact ihM (kv2 :: ms3) rest (by simp) hwm hnm
      rw [hin]
      simp only [parseMembers]
      simp +decide [skipWs, parseStr_rt k.data, hv, hm]

theorem parse_rt_elems_step (n : Nat)
    (ihV : ∀ (v : Json) (rest : List Char), wsV v = true → needV v ≤ n →
      numSafe rest = true → parseVal n (dumpV v ++ rest) = some (v, rest))
    (ihE : ∀ (es : List Json) (rest : List Char), es ≠ [] → wsE es = true →
      needE es ≤ n → parseElems n (dumpE es ++ ']' :: rest) = some (es, rest)) :
    ∀ (es : List Json) (rest : List Char), es ≠ [] → wsE es = true →
      needE es ≤ n + 1 → parseElems (n + 1) (dumpE es ++ ']' :: rest) = some (es, rest) := by
  intro es rest hne hws hneed
  cases es with
  | nil => exact absurd rfl hne
  | cons v es2 =>
    simp only [wsE, Bool.and_eq_true] at hws
    obtain ⟨hwv, hwe⟩ := hws
    simp only [needE] at hneed
    have hmax : max (needV v) (needE es2) ≤ n := by omega
    have hnv : needV v ≤ n := le_trans (Nat.le_max_left _ _) hmax
    have hnes : needE es2 ≤ n := le_trans (Nat.le_max_right _ _) hmax
    cases es2 with
    | nil =>
      have hin : dumpE [v] ++ ']' :: rest = dumpV v ++ ']' :: rest := by
        simp [dumpE]
      have hv : parseVal n (dumpV v ++ ']' :: rest) = some (v, ']' :: rest) :=
        ihV v (']' :: rest) hwv hnv rfl
      rw [hin]
      simp only [parseElems]
      simp +decide [skipWs, hv]
    | cons w es3 =>
      have hin : dumpE (v :: w :: es3) ++ ']' :: rest
          = dumpV v ++ ',' :: ' ' :: (dumpE (w :: es3) ++ ']' :: rest) := by
        simp [dumpE]
      have hv : parseVal n (dumpV v ++ ',' :: ' ' :: (dumpE (w :: es3) ++ ']' :: rest))
          = some (v, ',' :: ' ' :: (dumpE (w :: es3) ++ ']' :: rest)) :=
        ihV v _ hwv hnv rfl
      have he : parseElems n (' ' :: (dumpE (w :: es3) ++ ']' :: rest))
          = some (w :: es3, rest) := by
        rw [parseElems_skip_ws (by decide)]
        exact ihE (w :: es3) rest (by simp) hwe hnes
      rw [hin]
      simp only [parseElems]
      simp +decide [skipWs, hv, he]

theorem parse_rt : ∀ n : Nat,
    (∀ (v : Json) (rest : List Char), wsV v = true → needV v ≤ n →
      numSafe rest = true → parseVal n (dumpV v ++ rest) = some (v, rest))
    ∧ (∀ (ms : List (String × Json)) (rest : List Char), ms ≠ [] → wsM ms = true →
      needM ms ≤ n → parseMembers n (dumpM ms ++ rbrace :: rest) = some (ms, rest))
    ∧ (∀ (es : List Json) (rest : List Char), es ≠ [] → wsE es = true →
      needE es ≤ n → parseElems n (dumpE es ++ ']' :: rest) = some (es, rest)) := by
  intro n
  induction n with
  | zero =>
    refine ⟨?_, ?_, ?_⟩
    · intro v rest _ hn _
      have := needV_pos v
      omega
    · intro ms rest hne _ hn
      have := needM_pos hne
      omega
    · intro es rest hne _ hn
      have := needE_pos hne
      omega
  | succ n ih =>
    obtain ⟨ihV, ihM, ihE⟩ := ih
    exact ⟨parse_rt_val_step n ihM ihE, parse_rt_members_step n ihV ihM,
      parse_rt_elems_step n ihV ihE⟩

theorem natToDigits_ne_nil (n : Nat) : natToDigits n ≠ [] := by
  obtain ⟨d, t, _, hhead⟩ := (natToDigits_spec n).1
  rw [hhead]
  simp

theorem need_le_dumpLen : ∀ N : Nat,
    (∀ v : Json, sizeOf v ≤ N → needV v ≤ (dumpV v).length)
    ∧ (∀ ms : List (String × Json), sizeOf ms ≤ N → needM ms ≤ (dumpM ms).length + 1)
    ∧ (∀ es : List Json, sizeOf es ≤ N → needE es ≤ (dumpE es).length + 1) := by
  intro N
  induction N with
  | zero =>
    refine ⟨?_, ?_, ?_⟩
    · intro v hv
      exact absurd hv (by cases v <;> simp)
    · intro ms hms
      exact absurd hms (by cases ms <;> simp)
    · intro es hes
      exact absurd hes (by cases es <;> simp)
  | succ N ih =>
    obtain ⟨ihV, ihM, ihE⟩ := ih
    refine ⟨?_, ?_, ?_⟩
    · intro v hv
      cases v with
      | null => simp [needV, dumpV]
      | bool b => cases b <;> simp [needV, dumpV]
      | int i =>
        have h1 : intToChars i ≠ [] := by
          rw [intToChars]
          split
          · simp
          · exact natToDigits_ne_nil _
        have h2 : 1 ≤ (intToChars i).length := by
          cases hc : intToChars i with
          | nil => exact absurd hc h1
          | cons c t => simp
        simp only [needV, dumpV]
        omega
      | str s =>
        simp only [needV, dumpV]
        simp
      | obj ms =>
        have hms : sizeOf ms ≤ N := by
          have hsz : sizeOf (Json.obj ms) = 1 + sizeOf ms := by simp
          omega
        have := ihM ms hms
        simp only [needV, dumpV]
        simp only [List.length_cons, List.length_append, List.length_cons,
          List.length_nil]
        omega
      | arr es =>
        have hes : sizeOf es ≤ N := by
          have hsz : sizeOf (Json.arr es) = 1 + sizeOf es := by simp
          omega
        have := ihE es hes
        simp only [needV, dumpV]
        simp only [List.length_cons, List.length_append, List.length_cons,
          List.length_nil]
        omega
    · intro ms hms
      cases ms with
      | nil => simp [needM, dumpM]
      | cons kv ms2 =>
        obtain ⟨k, v⟩ := kv
        have hszv : sizeOf v ≤ N := by
          have h1 : sizeOf ((k, v) :: ms2) = 1 + sizeOf (k, v) + sizeOf ms2 := by simp
          have h2 : sizeOf (k, v) = 1 + sizeOf k + sizeOf v := by simp
          have h3 : 1 ≤ sizeOf ms2 := by cases ms2 <;> simp <;> omega
          omega
        have hszm : sizeOf ms2 ≤ N := by
          have h1 : sizeOf ((k, v) :: ms2) = 1 + sizeOf (k, v) + sizeOf ms2 := by simp
          have h2 : sizeOf (k, v) = 1 + sizeOf k + sizeOf v := by simp
          have h3 : 1 ≤ sizeOf v := by cases v <;> simp <;> omega
          omega
        have hv := ihV v hszv
        have hm := ihM ms2 hszm
        cases ms2 with
        | nil =>
          simp only [needM, dumpM, dumpKey]
          simp only [List.length_append, List.length_cons, List.length_nil, needM]
          have : max (needV v) 0 = needV v := by omega
          omega
        | cons kv2 ms3 =>
          simp only [needM] at hm ⊢
          simp only [dumpM, dumpKey] at hv hm ⊢
          simp only [List.length_append, List.length_cons, List.length_nil]
          have h4 : max (needV v) (max (needV kv2.2) (needM ms3) + 1)
              ≤ max ((dumpV v).length) (max (needV kv2.2) (needM ms3) + 1) := by
            omega
          omega
    · intro es hes
      cases es with
      | nil => simp [needE, dumpE]
      | cons v es2 =>
        have hszv : sizeOf v ≤ N := by
          have h1 : sizeOf (v :: es2) = 1 + sizeOf v + sizeOf es2 := by simp
          have h3 : 1 ≤ sizeOf es2 := by cases es2 <;> simp <;> omega
          omega
        have hsze : sizeOf es2 ≤ N := by
          have h1 : sizeOf (v :: es2) = 1 + sizeOf v + sizeOf es2 := by simp
          have h3 : 1 ≤ sizeOf v := by cases v <;> simp <;> omega
          omega
        have hv := ihV v hszv
        have he := ihE es2 hsze
        cases es2 with
        | nil =>
          simp only [needE, dumpE]
          have : max (needV v) 0 = needV v := by omega
          omega
        | cons w es3 =>
          simp only [needE] at he ⊢
          simp only [dumpE] at hv he ⊢
          simp only [List.length_append, List.length_cons]
          omega

/-- Round trip of the json model: parsing the serialization of a
well-formed value gives the value back. -/
theorem loads_dumps {v : Json} (h : wsV v = true) : loads (dumps v) = some v := by
  have hneed : needV v ≤ (dumpV v).length + 1 := by
    have h1 := (need_le_dumpLen (sizeOf v)).1 v le_rfl
    omega
  have hrt := (parse_rt ((dumpV v).length + 1)).1 v [] h hneed rfl
  rw [List.append_nil] at hrt
  show (match parseVal ((dumps v).length + 1) (dumps v).data with
    | none => none
    | some (v, rest) => if skipWs rest = [] then some v else none) = some v
  have hdata : (dumps v).data = dumpV v := rfl
  have hlen : (dumps v).length = (dumpV v).length := rfl
  rw [hdata, hlen, hrt]
  rfl

/-- Parsed values are well-formed. -/
theorem loads_ws {s : String} {v : Json} (h : loads s = some v) : wsV v = true := by
  rw [loads] at h
  split at h
  · exact absurd h (by simp)
  · rename_i pr v2 rest heq
    split at h
    · have hv := Option.some.inj h
      rw [← hv]
      exact (parse_ws (s.length + 1)).1 _ v2 rest heq
    · exact absurd h (by simp)

/-- Claim C4: when the stored metadata string fails to parse, embedded
enrichment replaces it with a fresh serialized `{role: role}` object for a
non-empty role and with an empty object for an empty role, and completes
without propagating the parse error; concretely, `{"metadata": "not-json"}`
enriched with role `"admin"` yields the string `{"role": "admin"}`. -/
theorem C4_parse_failure_fallback :
    (∀ (role : String) (cm : List (String × Json)) (s : String),
        getKey "metadata" cm = some (Json.str s) → loads s = none →
        enrichMeta role cm = .ok (setKey cm "metadata"
          (Json.str (if role = "" then "\x7b\x7d"
            else dumps (Json.obj [("role", Json.str role)])))))
    ∧ enrichMeta "admin" [("metadata", Json.str "not-json")]
        = .ok [("metadata", Json.str "\x7b\"role\": \"admin\"\x7d")] := by
  constructor
  · intro role cm s hget hloads
    rw [enrichMeta, hget]
    show (match loads s with
      | some (Json.obj d) =>
        Except.ok (setKey cm "metadata" (Json.str (dumps (Json.obj
          (if role = "" then d else setKey d "role" (Json.str role))))))
      | some v =>
        if role = "" then .ok (setKey cm "metadata" (Json.str (dumps v)))
        else .error ()
      | none =>
        .ok (setKey cm "metadata"
          (Json.str (if role = "" then "\x7b\x7d"
            else dumps (Json.obj [("role", Json.str role)]))))) = _
    rw [hloads]
  · rfl

/-- Witness for C4's general conjunct at metadata value `"###"` and role
`"r"`. -/
theorem C4_parse_failure_fallback_witness :
    (getKey "metadata" [("metadata", Json.str "###")] = some (Json.str "###")
      ∧ loads "###" = none)
    ∧ enrichMeta "r" [("metadata", Json.str "###")]
        = .ok (setKey [("metadata", Json.str "###")] "metadata"
          (Json.str (if ("r" : String) = "" then "\x7b\x7d"
            else dumps (Json.obj [("role", Json.str "r")])))) :=
  ⟨⟨rfl, rfl⟩, C4_parse_failure_fallback.1 "r" [("metadata", Json.str "###")] "###" rfl rfl⟩

/-- Claim C7: enrichment never deletes a pre-existing key other than the
nested `metadata` key it rewrites — embedded enrichment leaves every other
top-level key of `contentMetadata` unchanged, and on a successful parse
every key of the nested object other than `role` is unchanged; the
spec-modelled flat enrichment with a non-empty role only sets `role`. -/
theorem C7_enrichment_frame :
    (∀ (role : String) (cm cm2 : List (String × Json)),
        enrichMeta role cm = .ok cm2 →
        ∀ k, ¬ k = "metadata" → getKey k cm2 = getKey k cm)
    ∧ (∀ (role : String) (cm : List (String × Json)) (s : String)
        (d : List (String × Json)),
        getKey "metadata" cm = some (Json.str s) → loads s = some (Json.obj d) →
        ∃ d2, enrichMeta role cm
            = .ok (setKey cm "metadata" (Json.str (dumps (Json.obj d2))))
          ∧ ∀ k, ¬ k = "role" → getKey k d2 = getKey k d)
    ∧ (∀ (role : String) (cm : List (String × Json)), ¬ role = "" →
        getKey "role" (flatEnrich role cm) = some (Json.str role)
        ∧ ∀ k, ¬ k = "role" → getKey k (flatEnrich role cm) = getKey k cm) := by
  refine ⟨?_, ?_, ?_⟩
  · intro role cm cm2 h k hk
    rw [enrichMeta] at h
    split at h
    · split at h
      · simp only [Except.ok.injEq] at h
        rw [← h, getKey_setKey_ne hk]
      · split at h
        · simp only [Except.ok.injEq] at h
          rw [← h, getKey_setKey_ne hk]
        · exact absurd h (by simp)
      · simp only [Except.ok.injEq] at h
        rw [← h, getKey_setKey_ne hk]
    · exact absurd h (by simp)
  · intro role cm s d hget hloads
    refine ⟨if role = "" then d else setKey d "role" (Json.str role), ?_, ?_⟩
    · rw [enrichMeta, hget]
      show (match loads s with
        | some (Json.obj d) =>
          Except.ok (setKey cm "metadata" (Json.str (dumps (Json.obj
            (if role = "" then d else setKey d "role" (Json.str role))))))
        | some v =>
          if role = "" then .ok (setKey cm "metadata" (Json.str (dumps v)))
          else .error ()
        | none =>
          .ok (setKey cm "metadata"
            (Json.str (if role = "" then "\x7b\x7d"
              else dumps (Json.obj [("role", Json.str role)]))))) = _
      rw [hloads]
    · intro k hk
      by_cases hr : role = ""
      · rw [if_pos hr]
      · rw [if_neg hr, getKey_setKey_ne hk]
  · intro role cm hrole
    rw [flatEnrich, if_neg hrole]
    exact ⟨getKey_setKey_same _ _ _, fun k hk => getKey_setKey_ne hk _ _⟩

/-- Witness for C7 at a two-key metadata mapping with role `"r"`. -/
theorem C7_enrichment_frame_witness :
    (enrichMeta "r" [("metadata", Json.str "\x7b\x7d"), ("other", Json.int 3)]
        = .ok [("metadata", Json.str "\x7b\"role\": \"r\"\x7d"), ("other", Json.int 3)])
    ∧ getKey "other"
        [("metadata", Json.str "\x7b\"role\": \"r\"\x7d"), ("other", Json.int 3)]
      = getKey "other" [("metadata", Json.str "\x7b\x7d"), ("other", Json.int 3)] :=
  ⟨rfl, C7_enrichment_frame.1 "r"
    [("metadata", Json.str "\x7b\x7d"), ("other", Json.int 3)]
    [("metadata", Json.str "\x7b\"role\": \"r\"\x7d"), ("other", Json.int 3)]
    rfl "other" (by decide)⟩

theorem enrichMeta_again (role : String) (cm d : List (String × Json))
    (hwd : wsM d = true) :
    enrichMeta role (setKey cm "metadata" (Json.str (dumps (Json.obj d))))
      = .ok (setKey cm "metadata" (Json.str (dumps (Json.obj
          (if role = "" then d else setKey d "role" (Json.str role)))))) := by
  have hld : loads (dumps (Json.obj d)) = some (Json.obj d) := loads_dumps hwd
  rw [enrichMeta, getKey_setKey_same]
  show (match loads (dumps (Json.obj d)) with
    | some (Json.obj e) =>
      Except.ok (setKey (setKey cm "metadata" (Json.str (dumps (Json.obj d))))
        "metadata" (Json.str (dumps (Json.obj
          (if role = "" then e else setKey e "role" (Json.str role))))))
    | some v =>
      if role = "" then
        .ok (setKey (setKey cm "metadata" (Json.str (dumps (Json.obj d))))
          "metadata" (Json.str (dumps v)))
      else .error ()
    | none =>
      .ok (setKey (setKey cm "metadata" (Json.str (dumps (Json.obj d))))
        "metadata" (Json.str (if role = "" then "\x7b\x7d"
          else dumps (Json.obj [("role", Json.str role)]))))) = _
  rw [hld]
  exact congrArg Except.ok (setKey_setKey_same "metadata" _ _ cm)

theorem enrichMeta_again_nonobj (cm : List (String × Json)) (v : Json)
    (hwv : wsV v = true) (hno : ∀ e, v = Json.obj e → False) :
    enrichMeta "" (setKey cm "metadata" (Json.str (dumps v)))
      = .ok (setKey cm "metadata" (Json.str (dumps v))) := by
  have hld : loads (dumps v) = some v := loads_dumps hwv
  rw [enrichMeta, getKey_setKey_same]
  show (match loads (dumps v) with
    | some (Json.obj e) =>
      Except.ok (setKey (setKey cm "metadata" (Json.str (dumps v)))
        "metadata" (Json.str (dumps (Json.obj
          (if ("" : String) = "" then e else setKey e "role" (Json.str ""))))))
    | some w =>
      if ("" : String) = "" then
        .ok (setKey (setKey cm "metadata" (Json.str (dumps v)))
          "metadata" (Json.str (dumps w)))
      else .error ()
    | none =>
      .ok (setKey (setKey cm "metadata" (Json.str (dumps v)))
        "metadata" (Json.str (if ("" : String) = "" then "\x7b\x7d"
          else dumps (Json.obj [("role", Json.str "")]))))) = _
  rw [hld]
  cases v with
  | obj e => exact (hno e rfl).elim
  | null => simp [setKey_setKey_same]
  | bool b => simp [setKey_setKey_same]
  | int i => simp [setKey_setKey_same]
  | str t => simp [setKey_setKey_same]
  | arr es => simp [setKey_setKey_same]

theorem enrichMeta_stable {role : String} {cm cm2 : List (String × Json)}
    (h : enrichMeta role cm = .ok cm2) :
    enrichMeta role cm2 = .ok cm2 := by
  rw [enrichMeta] at h
  split at h
  · split at h
    · rename_i s hgetd d hl
      have hwd : wsM d = true := loads_ws hl
      simp only [Except.ok.injEq] at h
      by_cases hr : role = ""
      · subst hr
        subst h
        exact enrichMeta_again "" cm d hwd
      · rw [if_neg hr] at h
        subst h
        have he : wsM (setKey d "role" (Json.str role)) = true :=
          wsM_setKey hwd (show wsV (Json.str role) = true from rfl) "role"
        have h2 := enrichMeta_again role cm (setKey d "role" (Json.str role)) he
        rw [if_neg hr, setKey_setKey_same] at h2
        exact h2
    · rename_i s hgetd v hno hl
      split at h
      · rename_i hr
        subst hr
        simp only [Except.ok.injEq] at h
        subst h
        exact enrichMeta_again_nonobj cm v (loads_ws hl) hno
      · exact absurd h (by simp)
    · rename_i s hgetd hl
      simp only [Except.ok.injEq] at h
      by_cases hr : role = ""
      · subst hr
        subst h
        exact enrichMeta_again "" cm [] rfl
      · rw [if_neg hr] at h
        subst h
        have h2 := enrichMeta_again role cm [("role", Json.str role)] rfl
        rw [if_neg hr] at h2
        simpa [setKey] using h2
  · exact absurd h (by simp)

theorem processItem_stable {role : String} {c c2 : LContent}
    (h : processItem role c = .ok c2) : processItem role c2 = .ok c2 := by
  rw [processItem] at h
  split at h
  · exact absurd h (by simp)
  · rename_i cm2 heq
    simp only [Except.ok.injEq] at h
    subst h
    simp [processItem, enrichMeta_stable heq]

theorem mapE_stable {α ε : Type} {f : α → Except ε α}
    (hf : ∀ x y, f x = .ok y → f y = .ok y) :
    ∀ (xs ys : List α), mapE f xs = .ok ys → mapE f ys = .ok ys := by
  intro xs
  induction xs with
  | nil =>
    intro ys h
    simp only [mapE, Except.ok.injEq] at h
    subst h
    rfl
  | cons x xs ih =>
    intro ys h
    rw [mapE] at h
    split at h
    · exact absurd h (by simp)
    · rename_i y hy
      split at h
      · exact absurd h (by simp)
      · rename_i ys' hys
        simp only [Except.ok.injEq] at h
        subst h
        simp [mapE, hf x y hy, ih ys' hys]

/-- Claim C10: embedded-schema enrichment is idempotent — for a role and a
list of content items whose stored `metadata` values are strings, running
`process_content` of lambda-latest.py on its own output reproduces that
output exactly (the first pass leaves each `metadata` value a canonically
serialized string the second pass parses and rewrites identically). -/
theorem C10_enrichment_idempotent (role : String) (items : List LContent)
    (hstr : ∀ it ∈ items, ∃ s,
      getKey "metadata" (it.contentMetadata.getD []) = some (Json.str s)) :
    (processContentLatest role items).bind (processContentLatest role)
      = processContentLatest role items := by
  cases hp : processContentLatest role items with
  | error e => rfl
  | ok ys =>
    show processContentLatest role ys = .ok ys
    exact mapE_stable (fun x y h => processItem_stable h) items ys hp

/-- Witness for C10 at one item carrying metadata string `\x7b"a": 1\x7d`
and role `"admin"`. -/
theorem C10_enrichment_idempotent_witness :
    (∀ it ∈ [(⟨some "text/plain",
        some [("metadata", Json.str "\x7b\"a\": 1\x7d")],
        some "body"⟩ : LContent)],
      ∃ s, getKey "metadata" (it.contentMetadata.getD []) = some (Json.str s))
    ∧ (processContentLatest "admin" [⟨some "text/plain",
          some [("metadata", Json.str "\x7b\"a\": 1\x7d")], some "body"⟩]).bind
        (processContentLatest "admin")
      = processContentLatest "admin" [⟨some "text/plain",
          some [("metadata", Json.str "\x7b\"a\": 1\x7d")], some "body"⟩] :=
  ⟨fun it hit => by
      rw [List.mem_singleton] at hit
      subst hit
      exact ⟨"\x7b\"a\": 1\x7d", rfl⟩,
    C10_enrichment_idempotent "admin" _ (fun it hit => by
      rw [List.mem_singleton] at hit
      subst hit
      exact ⟨"\x7b\"a\": 1\x7d", rfl⟩)⟩
